import Mathlib

/-!
# Verification of the bhash chained-scatter hash table (bruce-hill/bhash)

This file gives a shallow embedding of the C sources of the bhash library and
proves or refutes the claims of the specification against it.

The main model (`namespace BH`) follows the combined-library hashmap
implementation (`bhash.c` hashmap section, `src/unnamed/part_000`):
pointer-sized keys and values are modelled as `Nat` (with `0` playing the role
of the `NULL` pointer), the `next` pointer of an entry is modelled as an
optional index into the same entry array, and the `lastfree` cursor is an
`Int` (it can scan below the start of the array, which C expresses as
`lastfree < entries`).  The loops of the C code become fuel-indexed recursive
functions; a result of `none` signals that the fuel ran out, which under the
table invariant never happens.  `hashmap_set` and `hashmap_resize` are
mutually recursive in C (resizing rehashes by re-inserting); the model indexes
this mutual recursion by an explicit fuel counter that decreases at every
resize, and every theorem about `set` is conditional on the call completing.

Secondary models embed the index-linked variant of `hashmap_pop`
(`src/unnamed/part_011`, mirrored by `hashset_remove` in `src/hashset.c`,
`namespace P11`), `hashset_add` of `src/hashset.c` (`namespace HS`), and the
string-interning table of `src/unnamed/part_007` together with an explicit
heap of byte buffers (`namespace IN`).
-/

namespace BH

/-- One entry of the hash map: `{ void *key; void *value; hashmap_entry_t *next; }`.
Keys and values are pointer-sized integers, `0` = `NULL`.  The `next` pointer
always points into the same entry array, so it is modelled as an optional
index. -/
structure Entry where
  key : Nat
  val : Nat
  next : Option Nat
deriving DecidableEq, Repr

/-- The all-zero entry produced by `memset`/`calloc`. -/
def emptyEntry : Entry := ⟨0, 0, none⟩

/-- `hashmap_t`: the entry array, its capacity, the `count` field (a C `int`),
the `lastfree` cursor (an index that may become `-1`, standing for the C
pointer moving below `entries`; the `NULL` cursor of a fresh table is also
modelled as `-1`, it is never read before `hashmap_resize` initialises it),
and the optional `fallback` table. -/
inductive Hashmap : Type where
  | mk (entries : Array Entry) (capacity : Nat) (count : Int) (lastfree : Int)
      (fallback : Option Hashmap) : Hashmap

def Hashmap.entries : Hashmap → Array Entry
  | .mk es _ _ _ _ => es

def Hashmap.capacity : Hashmap → Nat
  | .mk _ c _ _ _ => c

def Hashmap.count : Hashmap → Int
  | .mk _ _ n _ _ => n

def Hashmap.lastfree : Hashmap → Int
  | .mk _ _ _ lf _ => lf

def Hashmap.fallback : Hashmap → Option Hashmap
  | .mk _ _ _ _ fb => fb

/-- `hashmap_new` / a `calloc`ed `hashmap_t` with a given fallback. -/
def mkEmpty (fb : Option Hashmap) : Hashmap := .mk #[] 0 0 (-1) fb

/-- `hash_pointer`: `s = (size_t)p; if (s == 0) return 1234567;
return (s >> 5) | (s << (sizeof(void*) - 5));` on a 64-bit machine
(`sizeof(void*) - 5` is the byte count `3`, not a bit rotation). -/
def hash_pointer (p : Nat) : Nat :=
  let s := p % 2 ^ 64
  if s = 0 then 1234567 else (s >>> 5) ||| ((s <<< 3) % 2 ^ 64)

/-- The home slot `hash_pointer(key) & (capacity - 1)`. -/
def homeIdx (cap key : Nat) : Nat := hash_pointer key &&& (cap - 1)

/-- The key-searching chain walk shared by `hashmap_get` and the update scan
of `hashmap_set`: `for (e = &entries[i]; e && e->key; e = e->next)
if (e->key == key) return …;`.  Returns `some (some i)` when the key is found
at slot `i`, `some none` when the walk ends without a match, and `none` when
the fuel runs out (a cyclic chain, which makes the C loop diverge) or an
out-of-bounds slot is dereferenced (C undefined behavior). -/
def findKeyWalk (es : Array Entry) : Nat → Nat → Nat → Option (Option Nat)
  | 0, _, _ => none
  | fuel + 1, i, key =>
    match es[i]? with
    | none => none
    | some e =>
      if e.key = 0 then some none
      else if e.key = key then some (some i)
      else
        match e.next with
        | none => some none
        | some j => findKeyWalk es fuel j key

/-- The predecessor walk of the relocation branch of `hashmap_set`:
`prev = &entries[i2]; while (prev->next != collision) prev = prev->next;`.
Returns the slot whose `next` is `target`; `none` models both fuel exhaustion
(cyclic chain) and the null dereference the C code performs when the chain
ends without reaching `target`. -/
def findPrev (es : Array Entry) : Nat → Nat → Nat → Option Nat
  | 0, _, _ => none
  | fuel + 1, p, target =>
    match es[p]? with
    | none => none
    | some e =>
      match e.next with
      | none => none
      | some q => if q = target then some p else findPrev es fuel q target

/-- The key stored at slot `i` (`0` when the slot is empty or out of range). -/
def keyAt (es : Array Entry) (i : Nat) : Nat := (es[i]?.getD emptyEntry).key

/-- The value stored at slot `i`. -/
def valAt (es : Array Entry) (i : Nat) : Nat := (es[i]?.getD emptyEntry).val

/-- The chain link stored at slot `i`. -/
def nextAt (es : Array Entry) (i : Nat) : Option Nat := (es[i]?.getD emptyEntry).next

/-- The free-slot scan `while (lastfree >= entries && lastfree->key) --lastfree;`
expressed on the countdown `c = lastfree + 1`; returns the new `lastfree`. -/
def scanFreeNat (es : Array Entry) : Nat → Int
  | 0 => -1
  | c + 1 =>
    if keyAt es c ≠ 0 then scanFreeNat es c else (c : Int)

/-- The free-slot scan starting from the current `lastfree` cursor. -/
def scanFree (es : Array Entry) (lf : Int) : Int :=
  scanFreeNat es (lf + 1).toNat

/-- `hashmap_get`: walk the chain from the home slot; on a miss consult the
fallback table; `some v` is the returned pointer (`0` = `NULL`), `none` is
divergence of a chain walk. -/
def hashmap_get : Hashmap → Nat → Option Nat
  | .mk es cap _ _ fb, key =>
    let localRes : Option (Option Nat) :=
      if cap > 0 then findKeyWalk es (es.size + 1) (homeIdx cap key) key
      else some none
    match localRes with
    | none => none
    | some (some i) => some ((es[i]?.getD emptyEntry).val)
    | some none =>
      match fb with
      | some fb' => hashmap_get fb' key
      | none => some 0

/-- Outcome of one pass of the body of `hashmap_set` after the `retry:` label:
either the insertion finished, or no free slot was found and the table must be
resized to `newSize` and the pass restarted, or a chain walk diverged /
dereferenced out of bounds. -/
inductive SetOut : Type where
  | done (old : Nat) (h : Hashmap) : SetOut
  | needResize (h : Hashmap) (newSize : Nat) : SetOut
  | diverged : SetOut

/-- One pass of `hashmap_set` from the `retry:` label (capacity is nonzero
here).  Mirrors `src/unnamed/part_000` lines 109-171: empty home slot stores
directly (unless the value is `NULL`); a home slot whose occupant is in its
main position is scanned for an update of the same key; otherwise a free slot
is scanned for (returning `needResize` when the cursor falls off the array),
and the entry is spliced after the colliding head (`i2 == i`) or the displaced
occupant is relocated and the new entry takes the home slot (`i2 != i`). -/
def setCore : Hashmap → Nat → Nat → SetOut
  | .mk es cap cnt lf fb, key, value =>
    let i := homeIdx cap key
    match es[i]? with
    | none => .diverged
    | some collision =>
      if collision.key = 0 then
        if value = 0 then .done 0 (.mk es cap cnt lf fb)
        else .done 0 (.mk (es.set! i ⟨key, value, none⟩) cap (cnt + 1) lf fb)
      else
        let i2 := homeIdx cap collision.key
        let found : Option (Option Nat) :=
          if i2 = i then findKeyWalk es (es.size + 1) i key else some none
        match found with
        | none => .diverged
        | some (some j) =>
          let e := es[j]?.getD emptyEntry
          let cnt' := cnt + (if value ≠ 0 then 1 else 0) +
            (if e.val ≠ 0 then -1 else 0)
          .done e.val (.mk (es.set! j { e with val := value }) cap cnt' lf fb)
        | some none =>
          let lf' := scanFree es lf
          if lf' < 0 then
            let newSize : Nat :=
              if cnt + 1 > (cap : Int) then cap * 2
              else if cnt + 1 ≤ (cap : Int) / 2 then cap / 2
              else cap
            .needResize (.mk es cap cnt lf' fb) newSize
          else
            let fi := lf'.toNat
            if i2 = i then
              let es1 := (es.set! fi ⟨key, value, collision.next⟩).set! i
                { collision with next := some fi }
              .done 0 (.mk es1 cap (cnt + 1) lf' fb)
            else
              match findPrev es (es.size + 1) i2 i with
              | none => .diverged
              | some p =>
                let es1 := es.set! fi collision
                let es2 := es1.set! p { es1[p]?.getD emptyEntry with next := some fi }
                let es3 := es2.set! i ⟨key, value, none⟩
                .done 0 (.mk es3 cap (cnt + 1) lf' fb)

/-- The fresh zeroed table `hashmap_resize` allocates before rehashing:
`calloc`ed entries, `count = 0`, `lastfree = &entries[new_size - 1]`
(which is `-1` when `new_size = 0`), same fallback. -/
def freshTable (newSize : Nat) (fb : Option Hashmap) : Hashmap :=
  .mk (Array.mkArray newSize emptyEntry) newSize 0 ((newSize : Int) - 1) fb

mutual

/-- The retry loop of `hashmap_set`: run one pass; on `needResize`, resize and
restart from `retry:`.  The fuel bounds the number of resizes. -/
def setLoop : Nat → Hashmap → Nat → Nat → Option (Nat × Hashmap)
  | 0, _, _, _ => none
  | fuel + 1, h, key, value =>
    match setCore h key value with
    | .done old h' => some (old, h')
    | .diverged => none
    | .needResize h' ns =>
      match hashmap_resize fuel h' ns with
      | none => none
      | some h'' => setLoop fuel h'' key value
termination_by fuel _ _ _ => (fuel, 0, 0)

/-- `hashmap_resize`: allocate a fresh zeroed array, then rehash every entry
with a nonzero key of the old array by `hashmap_set` into the new table. -/
def hashmap_resize : Nat → Hashmap → Nat → Option Hashmap
  | fuel, h, newSize => rehashLoop fuel (freshTable newSize h.fallback) h.entries 0
termination_by fuel h _ => (fuel, 3, 0)

/-- The rehash loop of `hashmap_resize`:
`for (i = 0; i < old.capacity; i++) if (old.entries[i].key) hashmap_set(…);`. -/
def rehashLoop : Nat → Hashmap → Array Entry → Nat → Option Hashmap
  | fuel, h, old, i =>
    if hlt : i < old.size then
      if old[i].key ≠ 0 then
        match hashmap_set fuel h old[i].key old[i].val with
        | none => none
        | some (_, h') => rehashLoop fuel h' old (i + 1)
      else rehashLoop fuel h old (i + 1)
    else some h
termination_by fuel _ old i => (fuel, 2, old.size - i)

/-- `hashmap_set`: `NULL` keys return `NULL` immediately; a capacity-zero
table is first resized to 16 (its rehash loop has nothing to re-insert);
then the retry loop runs.  Returns the previous value and the new table, or
`none` when the fuel runs out or a chain walk diverges. -/
def hashmap_set : Nat → Hashmap → Nat → Nat → Option (Nat × Hashmap)
  | fuel, h, key, value =>
    if key = 0 then some (0, h)
    else
      let h1 := if h.capacity = 0 then freshTable 16 h.fallback else h
      setLoop fuel h1 key value
termination_by fuel _ _ _ => (fuel, 1, 0)

end

/-- `hashmap_length`: returns `(size_t)h->count` (the C cast of the signed
count to `size_t`). -/
def hashmap_length (h : Hashmap) : Nat := (h.count % (2 ^ 64 : Int)).toNat

/-- `hashmap_clear`: free the entry array and reset everything but the
fallback pointer. -/
def hashmap_clear (h : Hashmap) : Hashmap :=
  if h.capacity = 0 then h else .mk #[] 0 0 (-1) h.fallback

/-- The slot-locating walk of `hashmap_next`:
`while (e && e->key != key) e = e->next;` — unlike the `get` walk it does not
stop at an empty slot. -/
def walkFindSlot (es : Array Entry) : Nat → Nat → Nat → Option (Option Nat)
  | 0, _, _ => none
  | fuel + 1, i, key =>
    match es[i]? with
    | none => none
    | some e =>
      if e.key = key then some (some i)
      else
        match e.next with
        | none => some none
        | some j => walkFindSlot es fuel j key

/-- The upward scan of `hashmap_next`, on the countdown `fuel = size - j`:
`for (; e < &entries[capacity]; e++) if (e->key && e->value) return e->key;`. -/
def nextScanGo (es : Array Entry) : Nat → Nat → Option Nat
  | 0, _ => none
  | fuel + 1, j =>
    if h : j < es.size then
      if es[j].key ≠ 0 ∧ es[j].val ≠ 0 then some es[j].key
      else nextScanGo es fuel (j + 1)
    else none

/-- The upward scan of `hashmap_next` from slot `j`. -/
def nextScan (es : Array Entry) (j : Nat) : Option Nat :=
  nextScanGo es (es.size - j) j

/-- `hashmap_next`: `some (some k)` yields key `k`, `some none` is the `NULL`
end-of-iteration result, `none` is a diverging slot walk. -/
def hashmap_next (h : Hashmap) (key : Nat) : Option (Option Nat) :=
  if h.capacity = 0 then some none
  else if key = 0 then some (nextScan h.entries 0)
  else
    let i := homeIdx h.capacity key
    if (h.entries[i]?.getD emptyEntry).key = 0 then some none
    else
      match walkFindSlot h.entries (h.entries.size + 1) i key with
      | none => none
      | some none => some none
      | some (some s) => some (nextScan h.entries (s + 1))


/-! ## Slot accessors, update lemmas, chains, the logical view, and the invariant -/

theorem size_setE (es : Array Entry) (i : Nat) (e : Entry) :
    (es.set! i e).size = es.size := Array.size_set! ..

theorem getq_setE_self (es : Array Entry) (i : Nat) (e : Entry) (h : i < es.size) :
    (es.set! i e)[i]? = some e := by
  simp only [Array.set!, Array.setD, h, dite_true]
  exact Array.getElem?_set_eq ..

theorem getq_setE_ne (es : Array Entry) (i j : Nat) (e : Entry) (hne : i ≠ j) :
    (es.set! i e)[j]? = es[j]? := by
  simp only [Array.set!, Array.setD]
  split
  · exact Array.getElem?_set_ne _ _ _ (by simpa using hne)
  · rfl

theorem keyAt_setE_self (es : Array Entry) (i : Nat) (e : Entry) (h : i < es.size) :
    keyAt (es.set! i e) i = e.key := by
  simp only [keyAt, getq_setE_self es i e h, Option.getD_some]

theorem keyAt_setE_ne (es : Array Entry) (i j : Nat) (e : Entry) (hne : i ≠ j) :
    keyAt (es.set! i e) j = keyAt es j := by
  simp only [keyAt, getq_setE_ne es i j e hne]

theorem valAt_setE_self (es : Array Entry) (i : Nat) (e : Entry) (h : i < es.size) :
    valAt (es.set! i e) i = e.val := by
  simp only [valAt, getq_setE_self es i e h, Option.getD_some]

theorem valAt_setE_ne (es : Array Entry) (i j : Nat) (e : Entry) (hne : i ≠ j) :
    valAt (es.set! i e) j = valAt es j := by
  simp only [valAt, getq_setE_ne es i j e hne]

theorem nextAt_setE_self (es : Array Entry) (i : Nat) (e : Entry) (h : i < es.size) :
    nextAt (es.set! i e) i = e.next := by
  simp only [nextAt, getq_setE_self es i e h, Option.getD_some]

theorem nextAt_setE_ne (es : Array Entry) (i j : Nat) (e : Entry) (hne : i ≠ j) :
    nextAt (es.set! i e) j = nextAt es j := by
  simp only [nextAt, getq_setE_ne es i j e hne]

/-- The slot list of the chain starting at slot `i`: follow `next` links until
a terminated link; `none` when the fuel runs out (a cyclic chain). -/
def chainL (es : Array Entry) : Nat → Nat → Option (List Nat)
  | 0, _ => none
  | fuel + 1, i =>
    match nextAt es i with
    | none => some [i]
    | some j => (chainL es fuel j).map (i :: ·)

/-- First-match scan defining the logical key/value view of the entry array. -/
def viewFrom (es : Array Entry) (k : Nat) (i : Nat) : Nat :=
  if h : i < es.size then
    if keyAt es i = k then valAt es i else viewFrom es k (i + 1)
  else 0
termination_by es.size - i

/-- The logical value associated to key `k` by the entry array (`0` = absent). -/
def view (es : Array Entry) (k : Nat) : Nat := viewFrom es k 0

/-- Keys are stored in at most one slot. -/
def uniqP (es : Array Entry) (cap : Nat) : Prop :=
  ∀ i, i < cap → ∀ j, j < cap → keyAt es i ≠ 0 → keyAt es i = keyAt es j → i = j

/-- Every chain rooted at a slot holding a key whose home is that slot is a
terminating, duplicate-free list of occupied in-range slots sharing that home. -/
def chainsP (es : Array Entry) (cap : Nat) : Prop :=
  ∀ r, r < cap → keyAt es r ≠ 0 → homeIdx cap (keyAt es r) = r →
    chainL es (cap + 1) r ≠ none ∧
    ((chainL es (cap + 1) r).getD []).Nodup ∧
    ∀ j ∈ (chainL es (cap + 1) r).getD [],
      j < cap ∧ keyAt es j ≠ 0 ∧ homeIdx cap (keyAt es j) = r

/-- Every occupied slot is reachable from its key's home slot, which is
occupied by a key whose own home is that slot. -/
def rootedP (es : Array Entry) (cap : Nat) : Prop :=
  ∀ i, i < cap → keyAt es i ≠ 0 →
    keyAt es (homeIdx cap (keyAt es i)) ≠ 0 ∧
    homeIdx cap (keyAt es (homeIdx cap (keyAt es i))) = homeIdx cap (keyAt es i) ∧
    i ∈ (chainL es (cap + 1) (homeIdx cap (keyAt es i))).getD []

instance (es : Array Entry) (cap : Nat) : Decidable (uniqP es cap) := by
  unfold uniqP; infer_instance

instance (es : Array Entry) (cap : Nat) : Decidable (chainsP es cap) := by
  unfold chainsP
  haveI inst : ∀ r : Nat, Decidable (keyAt es r ≠ 0 → homeIdx cap (keyAt es r) = r →
      chainL es (cap + 1) r ≠ none ∧
      ((chainL es (cap + 1) r).getD []).Nodup ∧
      ∀ j ∈ (chainL es (cap + 1) r).getD [],
        j < cap ∧ keyAt es j ≠ 0 ∧ homeIdx cap (keyAt es j) = r) :=
    fun r => by infer_instance
  apply Nat.decidableBallLT

instance (es : Array Entry) (cap : Nat) : Decidable (rootedP es cap) := by
  unfold rootedP
  haveI inst : ∀ i : Nat, Decidable (keyAt es i ≠ 0 →
      keyAt es (homeIdx cap (keyAt es i)) ≠ 0 ∧
      homeIdx cap (keyAt es (homeIdx cap (keyAt es i))) = homeIdx cap (keyAt es i) ∧
      i ∈ (chainL es (cap + 1) (homeIdx cap (keyAt es i))).getD []) :=
    fun i => by infer_instance
  apply Nat.decidableBallLT

/-- The structural invariant of a bhash table: the entry array realises its
capacity, the capacity is zero or a power of two, the free-scan cursor is
below the capacity, keys are stored at most once, and the occupied slots are
partitioned into terminating, duplicate-free chains. -/
def INV : Hashmap → Prop
  | .mk es cap _ lf _ =>
    es.size = cap ∧
    (cap = 0 ∨ cap = 2 ^ Nat.log2 cap) ∧
    lf < (cap : Int) ∧
    uniqP es cap ∧ chainsP es cap ∧ rootedP es cap

theorem pow2_char (n : Nat) : (n = 2 ^ Nat.log2 n) ↔ ∃ t, t < n + 1 ∧ n = 2 ^ t := by
  constructor
  · intro h
    refine ⟨Nat.log2 n, ?_, h⟩
    have h2 := Nat.lt_two_pow (Nat.log2 n)
    rw [← h] at h2
    omega
  · rintro ⟨t, -, rfl⟩
    rw [Nat.log2_eq_log_two]
    have h2 : (1 : Nat) < 2 := one_lt_two
    rw [Nat.log_pow h2 t]

instance instDecidableINV (h : Hashmap) : Decidable (INV h) := by
  cases h with
  | mk es cap cnt lf fb =>
    refine decidable_of_iff (es.size = cap ∧
      (cap = 0 ∨ ∃ t, t < cap + 1 ∧ cap = 2 ^ t) ∧
      lf < (cap : Int) ∧ uniqP es cap ∧ chainsP es cap ∧ rootedP es cap) ?_
    unfold INV
    constructor
    · rintro ⟨a, b, c⟩
      exact ⟨a, b.imp id (fun hb => (pow2_char cap).mpr hb), c⟩
    · rintro ⟨a, b, c⟩
      exact ⟨a, b.imp id (fun hb => (pow2_char cap).mp hb), c⟩

theorem INV_mkEmpty (fb : Option Hashmap) : INV (mkEmpty fb) := by
  refine ⟨rfl, Or.inl rfl, by norm_num, ?_, ?_, ?_⟩ <;> intro i hi <;> omega

theorem INV_clear (h : Hashmap) (hw : INV h) : INV (hashmap_clear h) := by
  cases h with
  | mk es cap cnt lf fb =>
    unfold hashmap_clear
    by_cases hc : (Hashmap.mk es cap cnt lf fb).capacity = 0
    · simpa [hc] using hw
    · simp only [hc, if_false]
      refine ⟨rfl, Or.inl rfl, by norm_num, ?_, ?_, ?_⟩ <;> intro i hi <;> omega

/-- The home slot is in range for a nonzero power-of-two capacity. -/
theorem homeIdx_lt (cap k : Nat) (hc : cap = 2 ^ Nat.log2 cap) (h0 : cap ≠ 0) :
    homeIdx cap k < cap := by
  have : homeIdx cap k = hash_pointer k % cap := by
    unfold homeIdx
    conv_lhs => rw [hc]
    conv_rhs => rw [hc]
    exact Nat.and_pow_two_sub_one_eq_mod ..
  rw [this]
  exact Nat.mod_lt _ (Nat.pos_of_ne_zero h0)

/-! ## Chain and walk lemmas -/

theorem getq_of_lt (es : Array Entry) (i : Nat) (h : i < es.size) :
    es[i]? = some ⟨keyAt es i, valAt es i, nextAt es i⟩ := by
  simp [keyAt, valAt, nextAt, Array.getElem?_eq_getElem h]

theorem chainL_mono (es : Array Entry) :
    ∀ f f' i l, f ≤ f' → chainL es f i = some l → chainL es f' i = some l := by
  intro f
  induction f with
  | zero => intro f' i l _ hc; simp [chainL] at hc
  | succ f ih =>
    intro f' i l hle hc
    obtain ⟨f'', rfl⟩ : ∃ f'', f' = f'' + 1 := ⟨f' - 1, by omega⟩
    cases hn : nextAt es i with
    | none => simp only [chainL, hn] at hc ⊢; exact hc
    | some j =>
      simp only [chainL, hn] at hc ⊢
      cases hcj : chainL es f j with
      | none => rw [hcj] at hc; simp at hc
      | some t =>
        rw [hcj] at hc
        rw [ih f'' j t (by omega) hcj]
        exact hc

theorem chainL_head (es : Array Entry) (f i : Nat) (l : List Nat)
    (hc : chainL es f i = some l) : ∃ t, l = i :: t := by
  match f with
  | 0 => simp [chainL] at hc
  | f + 1 =>
    cases hn : nextAt es i with
    | none =>
      simp only [chainL, hn] at hc
      exact ⟨[], by simpa using hc.symm⟩
    | some j =>
      simp only [chainL, hn] at hc
      cases hcj : chainL es f j with
      | none => rw [hcj] at hc; simp at hc
      | some t =>
        rw [hcj] at hc
        exact ⟨t, by simpa using hc.symm⟩

theorem chainL_cons_none (es : Array Entry) (f i : Nat)
    (hn : nextAt es i = none) : chainL es (f + 1) i = some [i] := by
  simp only [chainL, hn]

theorem chainL_succ_some (es : Array Entry) (f i j : Nat)
    (hn : nextAt es i = some j) :
    chainL es (f + 1) i = (chainL es f j).map (i :: ·) := by
  simp only [chainL, hn]

theorem chainL_cons_some (es : Array Entry) (f i j : Nat) (l : List Nat)
    (hn : nextAt es i = some j) (hc : chainL es (f + 1) i = some l) :
    ∃ t, l = i :: t ∧ chainL es f j = some t := by
  simp only [chainL, hn] at hc
  cases hcj : chainL es f j with
  | none => rw [hcj] at hc; simp at hc
  | some t => rw [hcj] at hc; exact ⟨t, by simpa using hc.symm, rfl⟩

theorem chainL_two (es : Array Entry) (f r b : Nat) (rest : List Nat)
    (hc : chainL es f r = some (r :: b :: rest)) :
    nextAt es r = some b ∧ chainL es (f - 1) b = some (b :: rest) := by
  match f with
  | 0 => simp [chainL] at hc
  | f + 1 =>
    cases hn : nextAt es r with
    | none =>
      rw [chainL_cons_none es f r hn] at hc
      simp at hc
    | some j =>
      obtain ⟨t, ht, hcj⟩ := chainL_cons_some es f r j _ hn hc
      obtain rfl : t = b :: rest := by simpa using ht.symm
      obtain ⟨t', ht'⟩ := chainL_head es f j _ hcj
      injection ht' with h1 h2
      subst h1
      subst h2
      exact ⟨rfl, by simpa using hcj⟩

theorem chainL_suffix (es : Array Entry) :
    ∀ l₁ f r i l₂, chainL es f r = some (l₁ ++ i :: l₂) →
      chainL es (f - l₁.length) i = some (i :: l₂) := by
  intro l₁
  induction l₁ with
  | nil =>
    intro f r i l₂ hc
    obtain ⟨t, ht⟩ := chainL_head es f r _ hc
    simp only [List.nil_append] at hc ht
    simp only [List.cons.injEq] at ht
    simpa [ht.1] using hc
  | cons a l₁ ih =>
    intro f r i l₂ hc
    obtain ⟨t, ht⟩ := chainL_head es f r _ hc
    simp only [List.cons_append, List.cons.injEq] at ht
    obtain ⟨rfl, -⟩ := ht
    match f with
    | 0 => simp [chainL] at hc
    | f + 1 =>
      rcases hl : l₁ ++ i :: l₂ with _ | ⟨b, rest⟩
      · simp at hl
      · rw [show (a :: l₁) ++ i :: l₂ = a :: (l₁ ++ i :: l₂) from rfl, hl] at hc
        obtain ⟨hn, hcb⟩ := chainL_two es (f + 1) a b rest hc
        rw [← hl] at hcb
        have := ih f b i l₂ (by simpa using hcb)
        simpa [Nat.succ_sub_succ] using this

theorem chainL_mem_suffix (es : Array Entry) (f r i : Nat) (l : List Nat)
    (hc : chainL es f r = some l) (hi : i ∈ l) :
    ∃ l₂, chainL es f i = some (i :: l₂) ∧ ∃ l₁, l = l₁ ++ i :: l₂ := by
  obtain ⟨l₁, l₂, rfl⟩ := List.append_of_mem hi
  have h := chainL_suffix es l₁ f r i l₂ hc
  exact ⟨l₂, chainL_mono es _ f i _ (by omega) h, l₁, rfl⟩

theorem chainL_stable (es es' : Array Entry) :
    ∀ f r l, chainL es f r = some l → (∀ j ∈ l, nextAt es' j = nextAt es j) →
      chainL es' f r = some l := by
  intro f
  induction f with
  | zero => intro r l hc; simp [chainL] at hc
  | succ f ih =>
    intro r l hc hst
    cases hn : nextAt es r with
    | none =>
      rw [chainL_cons_none es f r hn] at hc
      obtain rfl : l = [r] := by simpa using hc.symm
      exact chainL_cons_none es' f r (by rw [hst r (by simp), hn])
    | some j =>
      obtain ⟨t, rfl, hcj⟩ := chainL_cons_some es f r j _ hn hc
      have hcj' := ih j t hcj (fun x hx => hst x (by simp [hx]))
      simp only [chainL, hst r (by simp), hn, hcj', Option.map_some']

theorem findKeyWalk_along (es : Array Entry) :
    ∀ f r l k, chainL es f r = some l →
      (∀ j ∈ l, j < es.size ∧ keyAt es j ≠ 0) →
      findKeyWalk es f r k = some (l.find? (fun j => keyAt es j == k)) := by
  intro f
  induction f with
  | zero => intro r l k hc; simp [chainL] at hc
  | succ f ih =>
    intro r l k hc hocc
    obtain ⟨t, rfl⟩ := chainL_head es _ r l hc
    have hr := hocc r (by simp)
    by_cases hk : keyAt es r = k
    · have hk0 : k ≠ 0 := hk ▸ hr.2
      have hfind : List.find? (fun j => keyAt es j == k) (r :: t) = some r := by
        simp [List.find?, hk]
      rw [hfind]
      simp [findKeyWalk, getq_of_lt es r hr.1, hk, hk0]
    · have hbeq : (keyAt es r == k) = false := beq_eq_false_iff_ne.mpr hk
      have hfind : List.find? (fun j => keyAt es j == k) (r :: t) =
          List.find? (fun j => keyAt es j == k) t := by
        simp [List.find?, hbeq]
      rw [hfind]
      simp only [findKeyWalk, getq_of_lt es r hr.1]
      rw [if_neg (by simpa using hr.2), if_neg hk]
      cases hn : nextAt es r with
      | none =>
        rw [chainL_cons_none es f r hn] at hc
        obtain rfl : t = [] := by simpa using hc.symm
        simp
      | some j =>
        obtain ⟨t', ht', hcj⟩ := chainL_cons_some es f r j _ hn hc
        obtain rfl : t = t' := by simpa using ht'
        exact ih j t k hcj (fun x hx => hocc x (by simp [hx]))

theorem walkFindSlot_along (es : Array Entry) :
    ∀ f r l k, chainL es f r = some l → (∀ j ∈ l, j < es.size) →
      walkFindSlot es f r k = some (l.find? (fun j => keyAt es j == k)) := by
  intro f
  induction f with
  | zero => intro r l k hc; simp [chainL] at hc
  | succ f ih =>
    intro r l k hc hocc
    obtain ⟨t, rfl⟩ := chainL_head es _ r l hc
    have hr := hocc r (by simp)
    by_cases hk : keyAt es r = k
    · have hfind : List.find? (fun j => keyAt es j == k) (r :: t) = some r := by
        simp [List.find?, hk]
      rw [hfind]
      simp [walkFindSlot, getq_of_lt es r hr, hk]
    · have hbeq : (keyAt es r == k) = false := beq_eq_false_iff_ne.mpr hk
      have hfind : List.find? (fun j => keyAt es j == k) (r :: t) =
          List.find? (fun j => keyAt es j == k) t := by
        simp [List.find?, hbeq]
      rw [hfind]
      simp only [walkFindSlot, getq_of_lt es r hr]
      rw [if_neg hk]
      cases hn : nextAt es r with
      | none =>
        rw [chainL_cons_none es f r hn] at hc
        obtain rfl : t = [] := by simpa using hc.symm
        simp
      | some j =>
        obtain ⟨t', ht', hcj⟩ := chainL_cons_some es f r j _ hn hc
        obtain rfl : t = t' := by simpa using ht'
        exact ih j t k hcj (fun x hx => hocc x (by simp [hx]))

theorem findPrev_along (es : Array Entry) :
    ∀ l₁ f r p t l₂, chainL es f r = some (l₁ ++ p :: t :: l₂) →
      (∀ j ∈ l₁ ++ p :: t :: l₂, j < es.size) →
      t ∉ l₁ → t ≠ p → findPrev es f r t = some p := by
  intro l₁
  induction l₁ with
  | nil =>
    intro f r p t l₂ hc hsz hm hp
    obtain ⟨t', ht'⟩ := chainL_head es f r _ hc
    simp only [List.nil_append, List.cons.injEq] at ht'
    obtain ⟨rfl, -⟩ := ht'
    obtain ⟨hn, -⟩ := chainL_two es f p t l₂ (by simpa using hc)
    match f with
    | 0 => simp [chainL] at hc
    | f + 1 =>
      simp only [findPrev, getq_of_lt es p (hsz p (by simp)), hn]
      simp
  | cons a l₁ ih =>
    intro f r p t l₂ hc hsz hm hp
    obtain ⟨t', ht'⟩ := chainL_head es f r _ hc
    simp only [List.cons_append, List.cons.injEq] at ht'
    obtain ⟨rfl, -⟩ := ht'
    rcases hl : l₁ ++ p :: t :: l₂ with _ | ⟨b, rest⟩
    · simp at hl
    · rw [show (a :: l₁) ++ p :: t :: l₂ = a :: (l₁ ++ p :: t :: l₂) from rfl, hl] at hc
      obtain ⟨hn, hcb⟩ := chainL_two es f a b rest hc
      match f with
      | 0 => simp [chainL] at hc
      | f + 1 =>
        simp only [findPrev, getq_of_lt es a (hsz a (by simp)), hn]
        have hbt : b ≠ t := by
          intro hbt
          rcases l₁ with _ | ⟨x, l₁'⟩
          · simp only [List.nil_append, List.cons.injEq] at hl
            exact hp (by rw [hbt] at hl; exact (hl.1).symm)
          · simp only [List.cons_append, List.cons.injEq] at hl
            exact hm (by simp [hl.1, ← hbt])
        rw [if_neg hbt]
        rw [← hl] at hcb
        exact ih (f + 1 - 1) b p t l₂ (by simpa using hcb)
          (fun j hj => hsz j (by simp at hj ⊢; tauto))
          (fun hmem => hm (by simp [hmem])) hp

theorem scanFreeNat_le (es : Array Entry) :
    ∀ c, -1 ≤ scanFreeNat es c ∧ scanFreeNat es c ≤ (c : Int) - 1 := by
  intro c
  induction c with
  | zero => simp [scanFreeNat]
  | succ c ih =>
    rw [scanFreeNat]
    split
    · exact ⟨ih.1, by omega⟩
    · exact ⟨by omega, by omega⟩

theorem scanFreeNat_found (es : Array Entry) :
    ∀ c, 0 ≤ scanFreeNat es c →
      keyAt es (scanFreeNat es c).toNat = 0 ∧ ((scanFreeNat es c).toNat : Int) < c := by
  intro c
  induction c with
  | zero => intro hge; simp [scanFreeNat] at hge
  | succ c ih =>
    intro hge
    rw [scanFreeNat] at hge ⊢
    by_cases hkey : keyAt es c ≠ 0
    · rw [if_pos hkey] at hge ⊢
      have := ih hge
      exact ⟨this.1, by omega⟩
    · rw [if_neg hkey] at hge ⊢
      simp only [ne_eq, not_not] at hkey
      refine ⟨by simpa using hkey, by simp⟩

/-! ## View lemmas and invariant helpers -/

theorem viewFrom_of_absent (es : Array Entry) (q : Nat) :
    ∀ i, (∀ j, i ≤ j → j < es.size → keyAt es j ≠ q) → viewFrom es q i = 0 := by
  intro i
  induction i using viewFrom.induct es q with
  | case1 i hlt hkey =>
    intro habs
    exact absurd (habs i le_rfl hlt) (by simp [hkey])
  | case2 i hlt hkey ih =>
    intro habs
    rw [viewFrom, dif_pos hlt, if_neg hkey]
    exact ih (fun j hij hj => habs j (by omega) hj)
  | case3 i hge =>
    intro _
    rw [viewFrom, dif_neg hge]

theorem viewFrom_of_holder (es : Array Entry) (q s : Nat) (hs : s < es.size)
    (hks : keyAt es s = q) :
    ∀ i, i ≤ s → (∀ j, i ≤ j → j < es.size → keyAt es j = q → j = s) →
      viewFrom es q i = valAt es s := by
  intro i
  induction i using viewFrom.induct es q with
  | case1 i hlt hkey =>
    intro his huq
    have : i = s := huq i le_rfl hlt hkey
    rw [viewFrom, dif_pos hlt, if_pos hkey, this]
  | case2 i hlt hkey ih =>
    intro his huq
    have his' : i + 1 ≤ s := by
      rcases Nat.eq_or_lt_of_le his with rfl | h
      · exact absurd hks hkey
      · omega
    rw [viewFrom, dif_pos hlt, if_neg hkey]
    exact ih his' (fun j hij hj hkj => huq j (by omega) hj hkj)
  | case3 i hge =>
    intro his _
    omega

theorem view_of_absent (es : Array Entry) (q : Nat)
    (habs : ∀ j, j < es.size → keyAt es j ≠ q) : view es q = 0 :=
  viewFrom_of_absent es q 0 (fun j _ hj => habs j hj)

theorem view_of_holder (es : Array Entry) (q s : Nat) (hs : s < es.size)
    (hks : keyAt es s = q)
    (huq : ∀ j, j < es.size → keyAt es j = q → j = s) : view es q = valAt es s :=
  viewFrom_of_holder es q s hs hks 0 (Nat.zero_le s) (fun j _ hj hkj => huq j hj hkj)

/-- A duplicate-free list of naturals below `n` has length at most `n`. -/
theorem nodup_length_le (l : List Nat) (n : Nat) (hnd : l.Nodup)
    (hlt : ∀ x ∈ l, x < n) : l.length ≤ n := by
  classical
  have h1 : l.toFinset.card = l.length := List.toFinset_card_of_nodup hnd
  have h2 : l.toFinset ⊆ Finset.range n := by
    intro x hx
    simp only [List.mem_toFinset] at hx
    exact Finset.mem_range.mpr (hlt x hx)
  calc l.length = l.toFinset.card := h1.symm
    _ ≤ (Finset.range n).card := Finset.card_le_card h2
    _ = n := Finset.card_range n

theorem chainL_build (es : Array Entry) (a b m : Nat) (tail : List Nat)
    (hn : nextAt es a = some b) (hc : chainL es m b = some tail) :
    chainL es (m + 1) a = some (a :: tail) := by
  rw [chainL_succ_some es m a b hn, hc, Option.map_some']

/-- Grafting a rewired tail onto a preserved chain prefix. -/
theorem chainL_graft (es es' : Array Entry) :
    ∀ la f r p lb x lc g, chainL es f r = some (la ++ p :: lb) →
      (∀ j ∈ la, nextAt es' j = nextAt es j) →
      nextAt es' p = some x → chainL es' g x = some (x :: lc) →
      chainL es' (la.length + 1 + g) r = some (la ++ p :: x :: lc) := by
  intro la
  induction la with
  | nil =>
    intro f r p lb x lc g hc _ hnp hcx
    obtain ⟨t, ht⟩ := chainL_head es f r _ hc
    simp only [List.nil_append, List.cons.injEq] at ht
    obtain ⟨rfl, -⟩ := ht
    simpa [Nat.add_comm] using chainL_build es' p x g (x :: lc) hnp hcx
  | cons a la ih =>
    intro f r p lb x lc g hc hpre hnp hcx
    obtain ⟨t, ht⟩ := chainL_head es f r _ hc
    simp only [List.cons_append, List.cons.injEq] at ht
    obtain ⟨rfl, -⟩ := ht
    rcases hla : la ++ p :: lb with _ | ⟨b, rest⟩
    · simp at hla
    · rw [show (a :: la) ++ p :: lb = a :: (la ++ p :: lb) from rfl, hla] at hc
      obtain ⟨hna, hcb⟩ := chainL_two es f a b rest hc
      rw [← hla] at hcb
      have hstep := ih (f - 1) b p lb x lc g hcb
        (fun j hj => hpre j (by simp [hj])) hnp hcx
      have hna' : nextAt es' a = some b := by rw [hpre a (by simp), hna]
      have := chainL_build es' a b (la.length + 1 + g) _ hna' hstep
      rw [show la.length + 1 + g + 1 = (a :: la).length + 1 + g by simp; omega] at this
      rcases hlb : la ++ p :: x :: lc with _ | ⟨b', rest'⟩
      · simp at hlb
      · have hb' : b' = b := by
          rcases la with _ | ⟨a0, la'⟩
          · simp only [List.nil_append, List.cons.injEq] at hla hlb
            rw [← hlb.1, hla.1]
          · simp only [List.cons_append, List.cons.injEq] at hla hlb
            rw [← hlb.1, hla.1]
        rw [show (a :: la) ++ p :: x :: lc = a :: (la ++ p :: x :: lc) from rfl, hlb, hb']
        rw [hlb] at this
        rw [hb'] at this
        exact this

/-- If a key is stored anywhere, its home slot in a table satisfying the chain
invariant is an occupied root and the key is on that root's chain. -/
theorem holder_cases (es : Array Entry) (cap : Nat) (cnt lf : Int)
    (fb : Option Hashmap) (hw : INV (.mk es cap cnt lf fb)) (k s : Nat)
    (hs : s < cap) (hks : keyAt es s = k) (hk : k ≠ 0) :
    keyAt es (homeIdx cap k) ≠ 0 ∧
    homeIdx cap (keyAt es (homeIdx cap k)) = homeIdx cap k ∧
    s ∈ (chainL es (cap + 1) (homeIdx cap k)).getD [] := by
  obtain ⟨hsz, hpow, hlf, huniq, hchains, hrooted⟩ := hw
  have := hrooted s hs (by rw [hks]; exact hk)
  rwa [hks] at this

theorem absent_of_empty_home (es : Array Entry) (cap : Nat) (cnt lf : Int)
    (fb : Option Hashmap) (hw : INV (.mk es cap cnt lf fb)) (k : Nat) (hk : k ≠ 0)
    (hempty : keyAt es (homeIdx cap k) = 0) :
    ∀ j, j < cap → keyAt es j ≠ k := by
  intro j hj hkj
  exact (holder_cases es cap cnt lf fb hw k j hj hkj hk).1 hempty

theorem absent_of_alien_home (es : Array Entry) (cap : Nat) (cnt lf : Int)
    (fb : Option Hashmap) (hw : INV (.mk es cap cnt lf fb)) (k : Nat) (hk : k ≠ 0)
    (halien : homeIdx cap (keyAt es (homeIdx cap k)) ≠ homeIdx cap k) :
    ∀ j, j < cap → keyAt es j ≠ k := by
  intro j hj hkj
  exact halien (holder_cases es cap cnt lf fb hw k j hj hkj hk).2.1

/-- An invariant-preserving congruence: changing only stored values keeps the
chain structure intact. -/
theorem INV_of_pointwise (es es' : Array Entry) (cap : Nat) (cnt cnt' lf : Int)
    (fb : Option Hashmap) (hw : INV (.mk es cap cnt lf fb))
    (hsz : es'.size = es.size)
    (hkey : ∀ x, keyAt es' x = keyAt es x)
    (hnext : ∀ x, nextAt es' x = nextAt es x) :
    INV (.mk es' cap cnt' lf fb) := by
  obtain ⟨hsz0, hpow, hlf, huniq, hchains, hrooted⟩ := hw
  have hchainEq : ∀ f r, chainL es' f r = chainL es f r := by
    intro f
    induction f with
    | zero => intro r; simp [chainL]
    | succ f ih =>
      intro r
      cases hn : nextAt es r with
      | none =>
        rw [chainL_cons_none es f r hn, chainL_cons_none es' f r (by rw [hnext, hn])]
      | some j =>
        rw [chainL_succ_some es' f r j (by rw [hnext, hn]),
          chainL_succ_some es f r j hn, ih j]
  refine ⟨by omega, hpow, hlf, ?_, ?_, ?_⟩
  · intro i hi j hj h1 h2
    exact huniq i hi j hj (by rwa [hkey] at h1) (by rwa [hkey, hkey] at h2)
  · intro r hr h1 h2
    rw [hkey] at h1 h2
    obtain ⟨c1, c2, c3⟩ := hchains r hr h1 h2
    rw [hchainEq]
    exact ⟨c1, c2, fun j hj => by
      obtain ⟨d1, d2, d3⟩ := c3 j hj
      exact ⟨d1, by rwa [hkey], by rwa [hkey]⟩⟩
  · intro i hi h1
    rw [hkey] at h1
    obtain ⟨c1, c2, c3⟩ := hrooted i hi h1
    rw [hkey, hchainEq, hkey]
    exact ⟨c1, c2, c3⟩

/-! ## Branch lemmas for `hashmap_set` -/

/-- Transfer of the logical view along an occurrence correspondence. -/
theorem view_corr (es es' : Array Entry) (cap : Nat)
    (hsz : es.size = cap) (hsz' : es'.size = cap)
    (huniq : uniqP es cap) (huniq' : uniqP es' cap) (q : Nat) (hq : q ≠ 0)
    (hfwd : ∀ s, s < cap → keyAt es s = q →
      ∃ s', s' < cap ∧ keyAt es' s' = q ∧ valAt es' s' = valAt es s)
    (hbwd : ∀ s', s' < cap → keyAt es' s' = q → ∃ s, s < cap ∧ keyAt es s = q) :
    view es' q = view es q := by
  classical
  by_cases hex : ∃ s, s < cap ∧ keyAt es s = q
  · obtain ⟨s, hs, hks⟩ := hex
    obtain ⟨s', hs', hks', hvs'⟩ := hfwd s hs hks
    rw [view_of_holder es q s (by omega) hks
      (fun j hj hkj => (huniq s hs j (by omega) (by rw [hks]; exact hq)
        (by rw [hks, hkj])).symm)]
    rw [view_of_holder es' q s' (by omega) hks'
      (fun j hj hkj => (huniq' s' hs' j (by omega) (by rw [hks']; exact hq)
        (by rw [hks', hkj])).symm)]
    exact hvs'
  · push_neg at hex
    rw [view_of_absent es q (fun j hj => hex j (by omega))]
    refine view_of_absent es' q (fun j hj hkj => ?_)
    obtain ⟨s, hs, hks⟩ := hbwd j (by omega) hkj
    exact hex s hs hks

/-- Uniqueness transfers along pointwise equal keys. -/
theorem uniqP_of_pointwise (es es' : Array Entry) (cap : Nat)
    (huniq : uniqP es cap) (hkey : ∀ x, keyAt es' x = keyAt es x) :
    uniqP es' cap := by
  intro x hx y hy h1 h2
  exact huniq x hx y hy (by rwa [hkey] at h1) (by rwa [hkey, hkey] at h2)

/-- Empty-home-slot branch of `hashmap_set`: storing a key whose home slot is
empty preserves the invariant and updates the view pointwise. -/
theorem insert_empty_spec (es : Array Entry) (cap : Nat) (cnt lf cnt' : Int)
    (fb : Option Hashmap) (hw : INV (.mk es cap cnt lf fb))
    (k v : Nat) (hk : k ≠ 0) (hcap : cap ≠ 0)
    (hempty : keyAt es (homeIdx cap k) = 0) :
    INV (.mk (es.set! (homeIdx cap k) ⟨k, v, none⟩) cap cnt' lf fb) ∧
    view es k = 0 ∧
    (∀ q, q ≠ 0 →
      view (es.set! (homeIdx cap k) ⟨k, v, none⟩) q = if q = k then v else view es q) := by
  have habs : ∀ j, j < cap → keyAt es j ≠ k :=
    absent_of_empty_home es cap cnt lf fb hw k hk hempty
  obtain ⟨hsz, hpow, hlf, huniq, hchains, hrooted⟩ := hw
  have hpow' : cap = 2 ^ Nat.log2 cap := hpow.resolve_left hcap
  have hi : homeIdx cap k < cap := homeIdx_lt cap k hpow' hcap
  have hisz : homeIdx cap k < es.size := by omega
  set i := homeIdx cap k with hidef
  set es' := es.set! i ⟨k, v, none⟩ with hes'
  have hkey : ∀ x, keyAt es' x = if x = i then k else keyAt es x := by
    intro x
    by_cases hx : x = i
    · rw [if_pos hx, hx, hes', keyAt_setE_self es i _ hisz]
    · rw [if_neg hx, hes', keyAt_setE_ne es i x _ (fun hh => hx hh.symm)]
  have hval : ∀ x, valAt es' x = if x = i then v else valAt es x := by
    intro x
    by_cases hx : x = i
    · rw [if_pos hx, hx, hes', valAt_setE_self es i _ hisz]
    · rw [if_neg hx, hes', valAt_setE_ne es i x _ (fun hh => hx hh.symm)]
  have hnext : ∀ x, nextAt es' x = if x = i then none else nextAt es x := by
    intro x
    by_cases hx : x = i
    · rw [if_pos hx, hx, hes', nextAt_setE_self es i _ hisz]
    · rw [if_neg hx, hes', nextAt_setE_ne es i x _ (fun hh => hx hh.symm)]
  have hsz' : es'.size = cap := by rw [hes', size_setE]; exact hsz
  have huniq' : uniqP es' cap := by
    intro x hx y hy h1 h2
    rw [hkey x] at h1 h2
    rw [hkey y] at h2
    by_cases hxi : x = i <;> by_cases hyi : y = i
    · rw [hxi, hyi]
    · rw [if_pos hxi, if_neg hyi] at h2
      exact absurd h2.symm (habs y hy)
    · rw [if_neg hxi, if_pos hyi] at h2
      exact absurd h2 (habs x hx)
    · rw [if_neg hxi] at h1 h2
      rw [if_neg hyi] at h2
      exact huniq x hx y hy h1 h2
  have hstable : ∀ r, r ≠ i → keyAt es r ≠ 0 → homeIdx cap (keyAt es r) = r →
      r < cap → chainL es' (cap + 1) r = chainL es (cap + 1) r := by
    intro r hri h1 h2 hr
    obtain ⟨c1, c2, c3⟩ := hchains r hr h1 h2
    cases hcl : chainL es (cap + 1) r with
    | none => exact absurd hcl c1
    | some l =>
      refine chainL_stable es es' (cap + 1) r l hcl (fun x hx => ?_)
      have hxp := c3 x (by rw [hcl]; simpa using hx)
      have hxi : x ≠ i := fun hh => hxp.2.1 (by rw [hh]; exact hempty)
      rw [hnext x, if_neg hxi]
  have hcli : chainL es' (cap + 1) i = some [i] :=
    chainL_cons_none es' cap i (by rw [hnext i, if_pos rfl])
  have hchains' : chainsP es' cap := by
    intro r hr h1 h2
    by_cases hri : r = i
    · rw [hri, hcli]
      refine ⟨by simp, by simp, fun j hj => ?_⟩
      obtain rfl : j = i := by simpa using hj
      rw [← hri]
      exact ⟨hr, h1, h2⟩
    · rw [hkey r, if_neg hri] at h1 h2
      rw [hstable r hri h1 h2 hr]
      obtain ⟨c1, c2, c3⟩ := hchains r hr h1 h2
      refine ⟨c1, c2, fun j hj => ?_⟩
      obtain ⟨d1, d2, d3⟩ := c3 j hj
      have hji : j ≠ i := fun hh => d2 (by rw [hh]; exact hempty)
      rw [hkey j, if_neg hji]
      exact ⟨d1, d2, d3⟩
  have hrooted' : rootedP es' cap := by
    intro x hx h1
    by_cases hxi : x = i
    · have hkx : keyAt es' x = k := by rw [hkey x, if_pos hxi]
      have hki : keyAt es' i = k := by rw [hkey i, if_pos rfl]
      refine ⟨?_, ?_, ?_⟩
      · rw [hkx, ← hidef, hki]
        exact hk
      · rw [hkx, ← hidef, hki, ← hidef]
      · rw [hkx, ← hidef, hcli]
        simp [hxi]
    · rw [hkey x, if_neg hxi] at h1
      rw [hkey x, if_neg hxi]
      obtain ⟨c1, c2, c3⟩ := hrooted x hx h1
      have hri : homeIdx cap (keyAt es x) ≠ i := by
        intro hh
        rw [hh] at c1
        exact c1 hempty
      have hrlt : homeIdx cap (keyAt es x) < cap := homeIdx_lt cap _ hpow' hcap
      rw [hkey _, if_neg hri, hstable _ hri c1 c2 hrlt]
      exact ⟨c1, c2, c3⟩
  refine ⟨⟨hsz', hpow, hlf, huniq', hchains', hrooted'⟩,
    view_of_absent es k (fun j hj => habs j (by omega)), fun q hq => ?_⟩
  by_cases hqk : q = k
  · rw [if_pos hqk, hqk]
    have huq : ∀ j', j' < es'.size → keyAt es' j' = k → j' = i := by
      intro j' hj' hkj'
      rw [hkey j'] at hkj'
      by_cases hji : j' = i
      · exact hji
      · rw [if_neg hji] at hkj'
        exact absurd hkj' (habs j' (by omega))
    rw [view_of_holder es' k i (by omega) (by rw [hkey i, if_pos rfl]) huq,
      hval i, if_pos rfl]
  · rw [if_neg hqk]
    refine view_corr es es' cap hsz hsz' huniq huniq' q hq ?_ ?_
    · intro t ht hkt
      have hti : t ≠ i := fun hh => hq (by rw [← hkt, hh]; exact hempty)
      exact ⟨t, ht, by rw [hkey t, if_neg hti]; exact hkt,
        by rw [hval t, if_neg hti]⟩
    · intro t ht hkt
      rw [hkey t] at hkt
      by_cases hti : t = i
      · rw [if_pos hti] at hkt
        exact absurd hkt.symm hqk
      · rw [if_neg hti] at hkt
        exact ⟨t, ht, hkt⟩

/-- Update-in-place branch of `hashmap_set`: rewriting the value of the slot
that already holds the key preserves the invariant and updates the view. -/
theorem update_spec (es : Array Entry) (cap : Nat) (cnt lf cnt' : Int)
    (fb : Option Hashmap) (hw : INV (.mk es cap cnt lf fb))
    (k v : Nat) (hk : k ≠ 0) (j : Nat) (hj : j < cap) (hkj : keyAt es j = k) :
    INV (.mk (es.set! j ⟨keyAt es j, v, nextAt es j⟩) cap cnt' lf fb) ∧
    view es k = valAt es j ∧
    (∀ q, q ≠ 0 →
      view (es.set! j ⟨keyAt es j, v, nextAt es j⟩) q = if q = k then v else view es q) := by
  obtain ⟨hsz, hpow, hlf, huniq, hchains, hrooted⟩ :=
    (id hw : INV (.mk es cap cnt lf fb))
  have hjsz : j < es.size := by omega
  set es' := es.set! j ⟨keyAt es j, v, nextAt es j⟩ with hes'
  have hkey : ∀ x, keyAt es' x = keyAt es x := by
    intro x
    by_cases hx : x = j
    · rw [hx, hes', keyAt_setE_self es j _ hjsz]
    · rw [hes', keyAt_setE_ne es j x _ (fun hh => hx hh.symm)]
  have hval : ∀ x, valAt es' x = if x = j then v else valAt es x := by
    intro x
    by_cases hx : x = j
    · rw [if_pos hx, hx, hes', valAt_setE_self es j _ hjsz]
    · rw [if_neg hx, hes', valAt_setE_ne es j x _ (fun hh => hx hh.symm)]
  have hnext : ∀ x, nextAt es' x = nextAt es x := by
    intro x
    by_cases hx : x = j
    · rw [hx, hes', nextAt_setE_self es j _ hjsz]
    · rw [hes', nextAt_setE_ne es j x _ (fun hh => hx hh.symm)]
  have hsz' : es'.size = cap := by rw [hes', size_setE]; exact hsz
  have hw' : INV (.mk es' cap cnt' lf fb) :=
    INV_of_pointwise es es' cap cnt cnt' lf fb hw (by omega) hkey hnext
  have huniq' : uniqP es' cap := uniqP_of_pointwise es es' cap huniq hkey
  have hjuniq : ∀ x, x < es.size → keyAt es x = k → x = j :=
    fun x hx hkx => (huniq j hj x (by omega) (by rw [hkj]; exact hk)
      (by rw [hkj, hkx])).symm
  refine ⟨hw', view_of_holder es k j hjsz hkj hjuniq, fun q hq => ?_⟩
  by_cases hqk : q = k
  · rw [if_pos hqk, hqk]
    rw [view_of_holder es' k j (by omega) (by rw [hkey j]; exact hkj)
      (fun x hx hkx => hjuniq x (by omega) (by rw [← hkey x]; exact hkx)),
      hval j, if_pos rfl]
  · rw [if_neg hqk]
    refine view_corr es es' cap hsz hsz' huniq huniq' q hq ?_ ?_
    · intro t ht hkt
      have htj : t ≠ j := fun hh => hqk (by rw [← hkt, hh, hkj])
      exact ⟨t, ht, by rw [hkey t]; exact hkt, by rw [hval t, if_neg htj]⟩
    · intro t ht hkt
      rw [hkey t] at hkt
      exact ⟨t, ht, hkt⟩

theorem chainL_min (es : Array Entry) :
    ∀ f r l, chainL es f r = some l → chainL es l.length r = some l := by
  intro f
  induction f with
  | zero => intro r l hc; simp [chainL] at hc
  | succ f ih =>
    intro r l hc
    cases hn : nextAt es r with
    | none =>
      rw [chainL_cons_none es f r hn] at hc
      obtain rfl : l = [r] := by simpa using hc.symm
      exact chainL_cons_none es 0 r hn
    | some j =>
      obtain ⟨t, rfl, hcj⟩ := chainL_cons_some es f r j _ hn hc
      have := chainL_build es r j t.length t hn (ih j t hcj)
      simpa using this

/-- Splice branch of `hashmap_set` (`i2 == i`): a fresh key whose home slot
holds a key with the same home is placed in the free slot and linked right
after the chain head. -/
theorem splice_spec (es : Array Entry) (cap : Nat) (cnt lf cnt' lf' : Int)
    (fb : Option Hashmap) (hw : INV (.mk es cap cnt lf fb))
    (k v : Nat) (hk : k ≠ 0) (hcap : cap ≠ 0)
    (hocc : keyAt es (homeIdx cap k) ≠ 0)
    (hroot : homeIdx cap (keyAt es (homeIdx cap k)) = homeIdx cap k)
    (habs : ∀ j, j < cap → keyAt es j ≠ k)
    (fi : Nat) (hfi : fi < cap) (hfie : keyAt es fi = 0)
    (hlf' : lf' < (cap : Int)) :
    INV (.mk ((es.set! fi ⟨k, v, nextAt es (homeIdx cap k)⟩).set! (homeIdx cap k)
        ⟨keyAt es (homeIdx cap k), valAt es (homeIdx cap k), some fi⟩) cap cnt' lf' fb) ∧
    view es k = 0 ∧
    (∀ q, q ≠ 0 →
      view ((es.set! fi ⟨k, v, nextAt es (homeIdx cap k)⟩).set! (homeIdx cap k)
        ⟨keyAt es (homeIdx cap k), valAt es (homeIdx cap k), some fi⟩) q =
        if q = k then v else view es q) := by
  obtain ⟨hsz, hpow, hlf, huniq, hchains, hrooted⟩ :=
    (id hw : INV (.mk es cap cnt lf fb))
  have hpow' : cap = 2 ^ Nat.log2 cap := hpow.resolve_left hcap
  have hi : homeIdx cap k < cap := homeIdx_lt cap k hpow' hcap
  set i := homeIdx cap k with hidef
  have hisz : i < es.size := by omega
  have hfisz : fi < es.size := by omega
  have hfine : fi ≠ i := fun hh => hocc (by rw [← hh]; exact hfie)
  set es' := (es.set! fi ⟨k, v, nextAt es i⟩).set! i
    ⟨keyAt es i, valAt es i, some fi⟩ with hes'
  have hsz1 : (es.set! fi ⟨k, v, nextAt es i⟩).size = es.size := size_setE ..
  have hkey : ∀ x, keyAt es' x =
      if x = i then keyAt es i else if x = fi then k else keyAt es x := by
    intro x
    by_cases hx : x = i
    · rw [if_pos hx, hx, hes', keyAt_setE_self _ i _ (by omega)]
    · rw [if_neg hx, hes', keyAt_setE_ne _ i x _ (fun hh => hx hh.symm)]
      by_cases hxf : x = fi
      · rw [if_pos hxf, hxf, keyAt_setE_self es fi _ hfisz]
      · rw [if_neg hxf, keyAt_setE_ne es fi x _ (fun hh => hxf hh.symm)]
  have hval : ∀ x, valAt es' x =
      if x = i then valAt es i else if x = fi then v else valAt es x := by
    intro x
    by_cases hx : x = i
    · rw [if_pos hx, hx, hes', valAt_setE_self _ i _ (by omega)]
    · rw [if_neg hx, hes', valAt_setE_ne _ i x _ (fun hh => hx hh.symm)]
      by_cases hxf : x = fi
      · rw [if_pos hxf, hxf, valAt_setE_self es fi _ hfisz]
      · rw [if_neg hxf, valAt_setE_ne es fi x _ (fun hh => hxf hh.symm)]
  have hnext : ∀ x, nextAt es' x =
      if x = i then some fi else if x = fi then nextAt es i else nextAt es x := by
    intro x
    by_cases hx : x = i
    · rw [if_pos hx, hx, hes', nextAt_setE_self _ i _ (by omega)]
    · rw [if_neg hx, hes', nextAt_setE_ne _ i x _ (fun hh => hx hh.symm)]
      by_cases hxf : x = fi
      · rw [if_pos hxf, hxf, nextAt_setE_self es fi _ hfisz]
      · rw [if_neg hxf, nextAt_setE_ne es fi x _ (fun hh => hxf hh.symm)]
  have hsz' : es'.size = cap := by rw [hes', size_setE, size_setE]; exact hsz
  -- the old chain at the root i
  obtain ⟨c1, c2, c3⟩ := hchains i hi hocc hroot
  obtain ⟨l, hcl⟩ : ∃ l, chainL es (cap + 1) i = some l := by
    cases hclo : chainL es (cap + 1) i with
    | none => exact absurd hclo c1
    | some l => exact ⟨l, rfl⟩
  rw [hcl] at c2 c3
  simp only [Option.getD_some] at c2 c3
  obtain ⟨t, rfl⟩ := chainL_head es _ i l hcl
  have hit : i ∉ t := by
    intro hmem
    exact (List.nodup_cons.mp c2).1 hmem
  have hfit : fi ∉ i :: t := fun hmem => (c3 fi hmem).2.1 hfie
  -- the new chain at the root i
  have htail : ∃ g, g + 1 ≤ cap ∧ chainL es' (g + 1) fi = some (fi :: t) := by
    cases hn : nextAt es i with
    | none =>
      rw [chainL_cons_none es cap i hn] at hcl
      obtain rfl : t = [] := by simpa using hcl.symm
      exact ⟨0, by omega, chainL_cons_none es' 0 fi (by
        rw [hnext fi, if_neg hfine, if_pos rfl, hn])⟩
    | some b =>
      obtain ⟨t', ht', hcb⟩ := chainL_cons_some es cap i b _ hn hcl
      obtain rfl : t = t' := by simpa using ht'
      have hlen : t.length ≤ cap - 1 := by
        have hnd : (i :: t).Nodup := c2
        have hlt : ∀ x ∈ i :: t, x < cap := fun x hx => (c3 x hx).1
        have := nodup_length_le (i :: t) cap hnd hlt
        simp at this
        omega
      have hmin := chainL_min es cap b (b :: t.tail) (by
        obtain ⟨tt, rfl⟩ := chainL_head es cap b _ hcb
        simpa using hcb)
      -- chain of b is stable in es'
      obtain ⟨tt, rfl⟩ := chainL_head es cap b _ hcb
      have hbst : chainL es' (b :: tt).length b = some (b :: tt) := by
        refine chainL_stable es es' _ b _ (by simpa using hmin) (fun x hx => ?_)
        have hxi : x ≠ i := fun hh => hit (hh ▸ hx)
        have hxf : x ≠ fi := fun hh => hfit (by simp [← hh, hx])
        rw [hnext x, if_neg hxi, if_neg hxf]
      have hlen2 : (b :: tt).length ≤ cap - 1 := by simpa using hlen
      refine ⟨(b :: tt).length, by omega, ?_⟩
      exact chainL_build es' fi b _ _ (by
        rw [hnext fi, if_neg hfine, if_pos rfl, hn]) hbst
  obtain ⟨g, hg, htail⟩ := htail
  have hnewroot : chainL es' (cap + 1) i = some (i :: fi :: t) := by
    have hb := chainL_build es' i fi (g + 1) (fi :: t)
      (by rw [hnext i, if_pos rfl]) htail
    exact chainL_mono es' (g + 1 + 1) (cap + 1) i _ (by omega) hb
  have hnewnd : (i :: fi :: t).Nodup := by
    rw [List.nodup_cons, List.nodup_cons]
    refine ⟨?_, fun hmem => hfit (by simp [hmem]), (List.nodup_cons.mp c2).2⟩
    intro hmem
    rcases List.mem_cons.mp hmem with hmem | hmem
    · exact hfine hmem.symm
    · exact hit hmem
  -- stability of other chains
  have hstable : ∀ r, r ≠ i → keyAt es r ≠ 0 → homeIdx cap (keyAt es r) = r →
      r < cap → chainL es' (cap + 1) r = chainL es (cap + 1) r := by
    intro r hri h1 h2 hr
    obtain ⟨d1, d2, d3⟩ := hchains r hr h1 h2
    cases hclr : chainL es (cap + 1) r with
    | none => exact absurd hclr d1
    | some lr =>
      refine chainL_stable es es' (cap + 1) r lr hclr (fun x hx => ?_)
      rw [hclr] at d3
      simp only [Option.getD_some] at d3
      have hxp := d3 x hx
      have hxi : x ≠ i := by
        intro hh
        apply hri
        rw [← hxp.2.2, hh]
        exact hroot
      have hxf : x ≠ fi := fun hh => hxp.2.1 (hh ▸ hfie)
      rw [hnext x, if_neg hxi, if_neg hxf]
  have huniq' : uniqP es' cap := by
    intro x hx y hy h1 h2
    rw [hkey x] at h1 h2
    rw [hkey y] at h2
    by_cases hxi : x = i <;> by_cases hyi : y = i
    · rw [hxi, hyi]
    · rw [if_pos hxi] at h1 h2
      rw [if_neg hyi] at h2
      by_cases hyf : y = fi
      · rw [if_pos hyf] at h2
        exact absurd h2 (habs i hi)
      · rw [if_neg hyf] at h2
        rw [hxi]
        exact huniq i hi y hy hocc h2
    · rw [if_neg hxi] at h1 h2
      rw [if_pos hyi] at h2
      by_cases hxf : x = fi
      · rw [if_pos hxf] at h1 h2
        exact absurd h2.symm (habs i hi)
      · rw [if_neg hxf] at h1 h2
        rw [hyi]
        exact huniq x hx i hi h1 h2
    · rw [if_neg hxi] at h1 h2
      rw [if_neg hyi] at h2
      by_cases hxf : x = fi <;> by_cases hyf : y = fi
      · rw [hxf, hyf]
      · rw [if_pos hxf] at h1 h2
        rw [if_neg hyf] at h2
        exact absurd h2.symm (habs y hy)
      · rw [if_neg hxf] at h1 h2
        rw [if_pos hyf] at h2
        exact absurd h2 (habs x hx)
      · rw [if_neg hxf] at h1 h2
        rw [if_neg hyf] at h2
        exact huniq x hx y hy h1 h2
  have hchains' : chainsP es' cap := by
    intro r hr h1 h2
    by_cases hri : r = i
    · rw [hri] at h2 ⊢
      rw [hnewroot]
      refine ⟨by simp, by simpa using hnewnd, fun j hj => ?_⟩
      simp only [Option.getD_some, List.mem_cons] at hj
      rcases hj with hj | hj | hj
      · rw [hj, hkey i, if_pos rfl]
        exact ⟨hi, hocc, hroot⟩
      · rw [hj, hkey fi, if_neg hfine, if_pos rfl]
        exact ⟨hfi, hk, hidef.symm⟩
      · have hji : j ≠ i := fun hh => hit (hh ▸ hj)
        have hjf : j ≠ fi := fun hh => hfit (by simp [← hh, hj])
        rw [hkey j, if_neg hji, if_neg hjf]
        refine c3 j ?_
        simp [hj]
    · rw [hkey r, if_neg hri] at h1 h2
      by_cases hrf : r = fi
      · rw [if_pos hrf] at h2
        exact absurd (hrf.symm.trans (hidef.trans h2).symm) hfine
      · rw [if_neg hrf] at h1 h2
        rw [hstable r hri h1 h2 hr]
        obtain ⟨d1, d2, d3⟩ := hchains r hr h1 h2
        refine ⟨d1, d2, fun j hj => ?_⟩
        obtain ⟨e1, e2, e3⟩ := d3 j hj
        have hji : j ≠ i := by
          intro hh
          apply hri
          rw [← e3, hh]
          exact hroot
        have hjf : j ≠ fi := fun hh => e2 (hh ▸ hfie)
        rw [hkey j, if_neg hji, if_neg hjf]
        exact ⟨e1, e2, e3⟩
  have hrooted' : rootedP es' cap := by
    intro x hx h1
    by_cases hxi : x = i
    · rw [hkey x, if_pos hxi]
      rw [hroot, hnewroot]
      refine ⟨by rw [hkey i, if_pos rfl]; exact hocc, ?_, by simp [hxi]⟩
      rw [hkey i, if_pos rfl, hroot]
    · by_cases hxf : x = fi
      · rw [hkey x, if_neg hxi, if_pos hxf, ← hidef]
        rw [hnewroot]
        refine ⟨by rw [hkey i, if_pos rfl]; exact hocc, ?_, by simp [hxf]⟩
        rw [hkey i, if_pos rfl, hroot, hidef]
      · rw [hkey x, if_neg hxi, if_neg hxf] at h1 ⊢
        obtain ⟨e1, e2, e3⟩ := hrooted x hx h1
        by_cases hhx : homeIdx cap (keyAt es x) = i
        · rw [hhx] at e3 ⊢
          rw [hkey i, if_pos rfl, hroot, hnewroot]
          rw [hcl] at e3
          simp only [Option.getD_some] at e3
          refine ⟨hocc, rfl, ?_⟩
          simp only [Option.getD_some, List.mem_cons]
          rcases List.mem_cons.mp e3 with he | he
          · exact Or.inl he
          · exact Or.inr (Or.inr he)
        · have hhlt : homeIdx cap (keyAt es x) < cap := homeIdx_lt cap _ hpow' hcap
          have hhf : homeIdx cap (keyAt es x) ≠ fi := fun hh => e1 (hh ▸ hfie)
          rw [hkey _, if_neg hhx, if_neg hhf]
          rw [hstable _ hhx e1 e2 hhlt]
          exact ⟨e1, e2, e3⟩
  refine ⟨⟨hsz', hpow, hlf', huniq', hchains', hrooted'⟩,
    view_of_absent es k (fun j hj => habs j (by omega)), fun q hq => ?_⟩
  by_cases hqk : q = k
  · rw [if_pos hqk, hqk]
    have huq : ∀ j', j' < es'.size → keyAt es' j' = k → j' = fi := by
      intro j' hj' hkj'
      rw [hkey j'] at hkj'
      by_cases hji : j' = i
      · rw [if_pos hji] at hkj'
        exact absurd hkj' (habs i hi)
      · rw [if_neg hji] at hkj'
        by_cases hjf : j' = fi
        · exact hjf
        · rw [if_neg hjf] at hkj'
          exact absurd hkj' (habs j' (by omega))
    rw [view_of_holder es' k fi (by omega)
      (by rw [hkey fi, if_neg hfine, if_pos rfl]) huq,
      hval fi, if_neg hfine, if_pos rfl]
  · rw [if_neg hqk]
    refine view_corr es es' cap hsz hsz' huniq huniq' q hq ?_ ?_
    · intro t' ht' hkt
      by_cases hti : t' = i
      · refine ⟨i, hi, ?_, ?_⟩
        · rw [hkey i, if_pos rfl, ← hti, hkt]
        · rw [hval i, if_pos rfl, hti]
      · have htf : t' ≠ fi := fun hh => hq (by rw [← hkt, hh]; exact hfie)
        exact ⟨t', ht', by rw [hkey t', if_neg hti, if_neg htf]; exact hkt,
          by rw [hval t', if_neg hti, if_neg htf]⟩
    · intro t' ht' hkt
      rw [hkey t'] at hkt
      by_cases hti : t' = i
      · rw [if_pos hti] at hkt
        exact ⟨i, hi, hkt⟩
      · rw [if_neg hti] at hkt
        by_cases htf : t' = fi
        · rw [if_pos htf] at hkt
          exact absurd hkt.symm hqk
        · rw [if_neg htf] at hkt
          exact ⟨t', ht', hkt⟩

theorem chainL_singleton (es : Array Entry) (f i : Nat)
    (hc : chainL es f i = some [i]) : nextAt es i = none := by
  match f with
  | 0 => simp [chainL] at hc
  | f + 1 =>
    cases hn : nextAt es i with
    | none => rfl
    | some j =>
      obtain ⟨t, ht, hcj⟩ := chainL_cons_some es f i j _ hn hc
      obtain rfl : t = [] := by simpa using ht.symm
      obtain ⟨t', ht'⟩ := chainL_head es f j _ hcj
      simp at ht'


theorem nodup_split (la l₂ : List Nat) (p0 i : Nat)
    (hnd : (la ++ p0 :: i :: l₂).Nodup) :
    i ∉ la ∧ i ≠ p0 ∧ i ∉ l₂ ∧ p0 ∉ la ∧ p0 ∉ l₂ ∧ la.Nodup ∧ l₂.Nodup := by
  simp only [List.nodup_append, List.nodup_cons, List.mem_cons, List.mem_append,
    not_or, List.disjoint_left] at hnd
  obtain ⟨h1, ⟨⟨h2a, h2b⟩, h3, h4⟩, h5⟩ := hnd
  refine ⟨?_, ?_, h3, ?_, h2b, h1, h4⟩
  · intro hm
    exact (h5 hm).2.1 rfl
  · intro hh
    exact h2a hh.symm
  · intro hm
    exact (h5 hm).1 rfl

theorem nodup_replace (la l₂ : List Nat) (p0 i fi : Nat)
    (hnd : (la ++ p0 :: i :: l₂).Nodup) (hfi : fi ∉ la ++ p0 :: i :: l₂) :
    (la ++ p0 :: fi :: l₂).Nodup := by
  simp only [List.nodup_append, List.nodup_cons, List.mem_cons, List.mem_append,
    not_or, List.disjoint_left] at hnd hfi ⊢
  obtain ⟨h1, ⟨⟨h2a, h2b⟩, h3, h4⟩, h5⟩ := hnd
  obtain ⟨hf1, hf2, hf3, hf4⟩ := hfi
  refine ⟨h1, ⟨⟨fun hh => hf2 hh.symm, h2b⟩, hf4, h4⟩, ?_⟩
  intro a ha
  refine ⟨(h5 ha).1, fun hh => hf1 (hh ▸ ha), (h5 ha).2.2⟩

/-- Relocation branch of `hashmap_set` (`i2 != i`): the displaced occupant of
the new key's home slot is moved to the free slot, its predecessor is
repointed, and the new key takes the home slot. -/
theorem relocate_spec (es : Array Entry) (cap : Nat) (cnt lf cnt' lf' : Int)
    (fb : Option Hashmap) (hw : INV (.mk es cap cnt lf fb))
    (k v : Nat) (hk : k ≠ 0) (hcap : cap ≠ 0)
    (hocc : keyAt es (homeIdx cap k) ≠ 0)
    (halien : homeIdx cap (keyAt es (homeIdx cap k)) ≠ homeIdx cap k)
    (fi : Nat) (hfi : fi < cap) (hfie : keyAt es fi = 0)
    (p : Nat)
    (hp : findPrev es (es.size + 1) (homeIdx cap (keyAt es (homeIdx cap k)))
      (homeIdx cap k) = some p)
    (hlf' : lf' < (cap : Int)) :
    INV (.mk (((es.set! fi ⟨keyAt es (homeIdx cap k), valAt es (homeIdx cap k),
        nextAt es (homeIdx cap k)⟩).set! p
        ⟨keyAt es p, valAt es p, some fi⟩).set! (homeIdx cap k) ⟨k, v, none⟩)
      cap cnt' lf' fb) ∧
    view es k = 0 ∧
    (∀ q, q ≠ 0 →
      view (((es.set! fi ⟨keyAt es (homeIdx cap k), valAt es (homeIdx cap k),
        nextAt es (homeIdx cap k)⟩).set! p
        ⟨keyAt es p, valAt es p, some fi⟩).set! (homeIdx cap k) ⟨k, v, none⟩) q =
        if q = k then v else view es q) := by
  have habs : ∀ j, j < cap → keyAt es j ≠ k :=
    absent_of_alien_home es cap cnt lf fb hw k hk halien
  obtain ⟨hsz, hpow, hlf, huniq, hchains, hrooted⟩ :=
    (id hw : INV (.mk es cap cnt lf fb))
  have hpow' : cap = 2 ^ Nat.log2 cap := hpow.resolve_left hcap
  have hi : homeIdx cap k < cap := homeIdx_lt cap k hpow' hcap
  set i := homeIdx cap k with hidef
  set i2 := homeIdx cap (keyAt es i) with hi2def
  have hisz : i < es.size := by omega
  have hfisz : fi < es.size := by omega
  have hfine : fi ≠ i := fun hh => hocc (by rw [← hh]; exact hfie)
  obtain ⟨e1, e2, e3⟩ := hrooted i hi hocc
  have hi2 : i2 < cap := homeIdx_lt cap _ hpow' hcap
  obtain ⟨c1, c2, c3⟩ := hchains i2 hi2 e1 e2
  obtain ⟨l, hcl⟩ : ∃ l, chainL es (cap + 1) i2 = some l := by
    cases hclo : chainL es (cap + 1) i2 with
    | none => exact absurd hclo c1
    | some l => exact ⟨l, rfl⟩
  rw [hcl] at c2 c3 e3
  simp only [Option.getD_some] at c2 c3 e3
  have hfil : fi ∉ l := fun hmem => (c3 fi hmem).2.1 hfie
  have hilen : l.length ≤ cap :=
    nodup_length_le l cap c2 (fun x hx => (c3 x hx).1)
  have hi2fi : i2 ≠ fi := by
    obtain ⟨t0, ht0⟩ := chainL_head es _ i2 _ hcl
    intro hh
    exact hfil (by rw [ht0, ← hh]; simp)
  obtain ⟨l₁, l₂, hlform⟩ := List.append_of_mem e3
  have hl₁ne : l₁ ≠ [] := by
    intro hh
    obtain ⟨t0, ht0⟩ := chainL_head es _ i2 _ hcl
    rw [hlform, hh] at ht0
    simp only [List.nil_append, List.cons.injEq] at ht0
    exact halien ht0.1.symm
  obtain ⟨la, p0, hl₁⟩ : ∃ la p0, l₁ = la ++ [p0] := by
    rcases List.eq_nil_or_concat l₁ with hh | ⟨la, p0, hh⟩
    · exact absurd hh hl₁ne
    · exact ⟨la, p0, by simpa [List.concat_eq_append] using hh⟩
  have hform : l = la ++ p0 :: i :: l₂ := by rw [hlform, hl₁]; simp
  rw [hform] at hcl c2 c3 hfil hilen
  obtain ⟨hila, hip0, hil₂, hp0la, hp0l₂, hlaNd, hl₂Nd⟩ := nodup_split la l₂ p0 i c2
  have hmemsz : ∀ j ∈ la ++ p0 :: i :: l₂, j < es.size := by
    intro j hj
    have := (c3 j hj).1
    omega
  have hci : chainL es (cap + 1) i = some (i :: l₂) := by
    have hres := chainL_suffix es (la ++ [p0]) (cap + 1) i2 i l₂ (by
      rw [show (la ++ [p0]) ++ i :: l₂ = la ++ p0 :: i :: l₂ by simp]
      exact hcl)
    exact chainL_mono es _ (cap + 1) i _ (by omega) hres
  obtain rfl : p = p0 := by
    have hprev := findPrev_along es la (cap + 1) i2 p0 i l₂ hcl hmemsz hila
      (fun hh => hip0 hh)
    rw [show es.size + 1 = cap + 1 by omega, hprev] at hp
    exact (Option.some_injective _ hp).symm
  obtain ⟨hplt, hpocc, hphome⟩ := c3 p (by simp)
  have hpi : p ≠ i := fun hh => hip0 hh.symm
  have hpfi : p ≠ fi := fun hh => hpocc (hh ▸ hfie)
  have hnp : nextAt es p = some i := by
    have hres := chainL_suffix es la (cap + 1) i2 p (i :: l₂) hcl
    exact (chainL_two es _ p i l₂
      (chainL_mono es _ (cap + 1) p _ (by omega) hres)).1
  have hpsz : p < es.size := by omega
  set es' := ((es.set! fi ⟨keyAt es i, valAt es i, nextAt es i⟩).set! p
    ⟨keyAt es p, valAt es p, some fi⟩).set! i ⟨k, v, none⟩ with hes'
  have hsz' : es'.size = cap := by
    rw [hes', size_setE, size_setE, size_setE]
    exact hsz
  have hkey : ∀ x, keyAt es' x =
      if x = i then k else if x = fi then keyAt es i else keyAt es x := by
    intro x
    by_cases hx : x = i
    · rw [if_pos hx, hx, hes',
        keyAt_setE_self _ i _ (by rw [size_setE, size_setE]; omega)]
    · rw [if_neg hx, hes', keyAt_setE_ne _ i x _ (fun hh => hx hh.symm)]
      by_cases hxp : x = p
      · rw [hxp, keyAt_setE_self _ p _ (by rw [size_setE]; omega),
          if_neg (fun hh : p = fi => hpfi hh)]
      · rw [keyAt_setE_ne _ p x _ (fun hh => hxp hh.symm)]
        by_cases hxf : x = fi
        · rw [if_pos hxf, hxf, keyAt_setE_self es fi _ hfisz]
        · rw [if_neg hxf, keyAt_setE_ne es fi x _ (fun hh => hxf hh.symm)]
  have hval : ∀ x, valAt es' x =
      if x = i then v else if x = fi then valAt es i else valAt es x := by
    intro x
    by_cases hx : x = i
    · rw [if_pos hx, hx, hes',
        valAt_setE_self _ i _ (by rw [size_setE, size_setE]; omega)]
    · rw [if_neg hx, hes', valAt_setE_ne _ i x _ (fun hh => hx hh.symm)]
      by_cases hxp : x = p
      · rw [hxp, valAt_setE_self _ p _ (by rw [size_setE]; omega),
          if_neg (fun hh : p = fi => hpfi hh)]
      · rw [valAt_setE_ne _ p x _ (fun hh => hxp hh.symm)]
        by_cases hxf : x = fi
        · rw [if_pos hxf, hxf, valAt_setE_self es fi _ hfisz]
        · rw [if_neg hxf, valAt_setE_ne es fi x _ (fun hh => hxf hh.symm)]
  have hnext : ∀ x, nextAt es' x =
      if x = i then none else if x = fi then nextAt es i
      else if x = p then some fi else nextAt es x := by
    intro x
    by_cases hx : x = i
    · rw [if_pos hx, hx, hes',
        nextAt_setE_self _ i _ (by rw [size_setE, size_setE]; omega)]
    · rw [if_neg hx, hes', nextAt_setE_ne _ i x _ (fun hh => hx hh.symm)]
      by_cases hxp : x = p
      · rw [hxp, nextAt_setE_self _ p _ (by rw [size_setE]; omega),
          if_neg (fun hh : p = fi => hpfi hh), if_pos rfl]
      · rw [nextAt_setE_ne _ p x _ (fun hh => hxp hh.symm), if_neg hxp]
        by_cases hxf : x = fi
        · rw [if_pos hxf, hxf, nextAt_setE_self es fi _ hfisz]
        · rw [if_neg hxf, nextAt_setE_ne es fi x _ (fun hh => hxf hh.symm)]
  have hcli : chainL es' (cap + 1) i = some [i] :=
    chainL_cons_none es' cap i (by rw [hnext i, if_pos rfl])
  have hl₂fi : fi ∉ l₂ := fun hmem => hfil (by simp [hmem])
  have htail : chainL es' (l₂.length + 1) fi = some (fi :: l₂) := by
    cases l₂ with
    | nil =>
      have hn : nextAt es i = none := chainL_singleton es (cap + 1) i hci
      simpa using chainL_cons_none es' 0 fi (by
        rw [hnext fi, if_neg hfine, if_pos rfl, hn])
    | cons b rest =>
      obtain ⟨hnib, hcb⟩ := chainL_two es (cap + 1) i b rest hci
      have hmin := chainL_min es _ b _ hcb
      have hbst : chainL es' (b :: rest).length b = some (b :: rest) := by
        refine chainL_stable es es' _ b _ hmin (fun x hx => ?_)
        have hxi : x ≠ i := fun hh => hil₂ (hh ▸ hx)
        have hxp : x ≠ p := fun hh => hp0l₂ (hh ▸ hx)
        have hxf : x ≠ fi := fun hh => hl₂fi (hh ▸ hx)
        rw [hnext x, if_neg hxi, if_neg hxf, if_neg hxp]
      have hbuild := chainL_build es' fi b (b :: rest).length (b :: rest)
        (by rw [hnext fi, if_neg hfine, if_pos rfl, hnib]) hbst
      simpa using hbuild
  have hlen2 : la.length + l₂.length + 2 ≤ cap := by
    have := hilen
    simp only [List.length_append, List.length_cons] at this
    omega
  have hnewroot : chainL es' (cap + 1) i2 = some (la ++ p :: fi :: l₂) := by
    have hgraft := chainL_graft es es' la (cap + 1) i2 p (i :: l₂) fi l₂
      (l₂.length + 1) hcl
      (fun j hj => by
        have hji : j ≠ i := fun hh => hila (hh ▸ hj)
        have hjp : j ≠ p := fun hh => hp0la (hh ▸ hj)
        have hjf : j ≠ fi := fun hh => hfil (by rw [← hh]; simp [hj])
        rw [hnext j, if_neg hji, if_neg hjf, if_neg hjp])
      (by rw [hnext p, if_neg hpi, if_neg hpfi, if_pos rfl]) htail
    exact chainL_mono es' _ (cap + 1) i2 _ (by omega) hgraft
  have hnewnd : (la ++ p :: fi :: l₂).Nodup := nodup_replace la l₂ p i fi c2 hfil
  have hnewmem : ∀ j ∈ la ++ p :: fi :: l₂,
      j < cap ∧ keyAt es' j ≠ 0 ∧ homeIdx cap (keyAt es' j) = i2 := by
    intro j hj
    simp only [List.mem_append, List.mem_cons] at hj
    rcases hj with hj | hj | hj | hj
    · have hji : j ≠ i := fun hh => hila (hh ▸ hj)
      have hjf : j ≠ fi := fun hh => hfil (by rw [← hh]; simp [hj])
      have := c3 j (by simp [hj])
      rw [hkey j, if_neg hji, if_neg hjf]
      exact this
    · rw [hj, hkey p, if_neg hpi, if_neg hpfi]
      exact ⟨hplt, hpocc, hphome⟩
    · rw [hj, hkey fi, if_neg hfine, if_pos rfl]
      exact ⟨hfi, hocc, hi2def.symm⟩
    · have hji : j ≠ i := fun hh => hil₂ (hh ▸ hj)
      have hjf : j ≠ fi := fun hh => hl₂fi (hh ▸ hj)
      have := c3 j (by simp [hj])
      rw [hkey j, if_neg hji, if_neg hjf]
      exact this
  have hstable : ∀ r, r ≠ i → r ≠ i2 → keyAt es r ≠ 0 →
      homeIdx cap (keyAt es r) = r → r < cap →
      chainL es' (cap + 1) r = chainL es (cap + 1) r := by
    intro r hri hri2 h1 h2 hr
    obtain ⟨d1, d2, d3⟩ := hchains r hr h1 h2
    cases hclr : chainL es (cap + 1) r with
    | none => exact absurd hclr d1
    | some lr =>
      refine chainL_stable es es' (cap + 1) r lr hclr (fun x hx => ?_)
      rw [hclr] at d3
      simp only [Option.getD_some] at d3
      have hxp2 := d3 x hx
      have hxi : x ≠ i := by
        intro hh
        apply hri2
        rw [← hxp2.2.2, hh, ← hi2def]
      have hxp : x ≠ p := by
        intro hh
        apply hri2
        rw [← hxp2.2.2, hh, hphome]
      have hxf : x ≠ fi := fun hh => hxp2.2.1 (hh ▸ hfie)
      rw [hnext x, if_neg hxi, if_neg hxf, if_neg hxp]
  have huniq' : uniqP es' cap := by
    intro x hx y hy h1 h2
    rw [hkey x] at h1 h2
    rw [hkey y] at h2
    by_cases hxi : x = i <;> by_cases hyi : y = i
    · rw [hxi, hyi]
    · rw [if_pos hxi] at h1 h2
      rw [if_neg hyi] at h2
      by_cases hyf : y = fi
      · rw [if_pos hyf] at h2
        exact absurd h2.symm (habs i hi)
      · rw [if_neg hyf] at h2
        exact absurd h2.symm (habs y hy)
    · rw [if_neg hxi] at h1 h2
      rw [if_pos hyi] at h2
      by_cases hxf : x = fi
      · rw [if_pos hxf] at h1 h2
        exact absurd h2 (habs i hi)
      · rw [if_neg hxf] at h1 h2
        exact absurd h2 (habs x hx)
    · rw [if_neg hxi] at h1 h2
      rw [if_neg hyi] at h2
      by_cases hxf : x = fi <;> by_cases hyf : y = fi
      · rw [hxf, hyf]
      · rw [if_pos hxf] at h1 h2
        rw [if_neg hyf] at h2
        exact absurd (huniq i hi y hy hocc h2).symm hyi
      · rw [if_neg hxf] at h1 h2
        rw [if_pos hyf] at h2
        exact absurd (huniq x hx i hi h1 h2) hxi
      · rw [if_neg hxf] at h1 h2
        rw [if_neg hyf] at h2
        exact huniq x hx y hy h1 h2
  have hchains' : chainsP es' cap := by
    intro r hr h1 h2
    by_cases hri : r = i
    · rw [hri] at h1 h2 ⊢
      rw [hcli]
      refine ⟨by simp, by simp, fun j hj => ?_⟩
      obtain rfl : j = i := by simpa using hj
      rw [hkey i, if_pos rfl] at h1 h2 ⊢
      exact ⟨hi, h1, h2⟩
    · by_cases hri2 : r = i2
      · rw [hri2, hnewroot]
        refine ⟨by simp, by simpa using hnewnd, fun j hj => ?_⟩
        refine hnewmem j ?_
        simpa using hj
      · rw [hkey r, if_neg hri] at h1 h2
        by_cases hrf : r = fi
        · rw [if_pos hrf] at h2
          exact absurd ((hi2def.trans h2).trans hrf) hi2fi
        · rw [if_neg hrf] at h1 h2
          rw [hstable r hri hri2 h1 h2 hr]
          obtain ⟨d1, d2, d3⟩ := hchains r hr h1 h2
          refine ⟨d1, d2, fun j hj => ?_⟩
          obtain ⟨f1, f2, f3⟩ := d3 j hj
          have hji : j ≠ i := by
            intro hh
            apply hri2
            rw [← f3, hh, ← hi2def]
          have hjf : j ≠ fi := fun hh => f2 (hh ▸ hfie)
          rw [hkey j, if_neg hji, if_neg hjf]
          exact ⟨f1, f2, f3⟩
  have hrooted' : rootedP es' cap := by
    intro x hx h1
    by_cases hxi : x = i
    · rw [hkey x, if_pos hxi, ← hidef, hcli]
      refine ⟨by rw [hkey i, if_pos rfl]; exact hk, ?_, by simp [hxi]⟩
      rw [hkey i, if_pos rfl, ← hidef]
    · by_cases hxf : x = fi
      · rw [hkey x, if_neg hxi, if_pos hxf, ← hi2def, hnewroot]
        have hi2i : i2 ≠ i := fun hh => halien (hi2def ▸ hh)
        refine ⟨?_, ?_, by simp [hxf]⟩
        · rw [hkey i2, if_neg hi2i, if_neg hi2fi]
          exact e1
        · rw [hkey i2, if_neg hi2i, if_neg hi2fi, e2]
      · rw [hkey x, if_neg hxi, if_neg hxf] at h1 ⊢
        obtain ⟨f1, f2, f3⟩ := hrooted x hx h1
        by_cases hhx : homeIdx cap (keyAt es x) = i2
        · rw [hhx] at f3 ⊢
          have hi2i : i2 ≠ i := fun hh => halien (hi2def ▸ hh)
          rw [hkey i2, if_neg hi2i, if_neg hi2fi, hnewroot]
          refine ⟨e1, e2, ?_⟩
          rw [hcl] at f3
          simp only [Option.getD_some] at f3 ⊢
          simp only [List.mem_append, List.mem_cons] at f3 ⊢
          rcases f3 with hm | hm | hm | hm
          · exact Or.inl hm
          · exact Or.inr (Or.inl hm)
          · exact absurd hm hxi
          · exact Or.inr (Or.inr (Or.inr hm))
        · have hhxi : homeIdx cap (keyAt es x) ≠ i := by
            intro hh
            rw [hh, ← hi2def] at f2
            exact halien f2
          have hrlt : homeIdx cap (keyAt es x) < cap := homeIdx_lt cap _ hpow' hcap
          have hhxf : homeIdx cap (keyAt es x) ≠ fi := fun hh => f1 (hh ▸ hfie)
          rw [hkey _, if_neg hhxi, if_neg hhxf,
            hstable _ hhxi hhx f1 f2 hrlt]
          exact ⟨f1, f2, f3⟩
  refine ⟨⟨hsz', hpow, hlf', huniq', hchains', hrooted'⟩,
    view_of_absent es k (fun j hj => habs j (by omega)), fun q hq => ?_⟩
  by_cases hqk : q = k
  · rw [if_pos hqk, hqk]
    have huq : ∀ j', j' < es'.size → keyAt es' j' = k → j' = i := by
      intro j' hj' hkj'
      rw [hkey j'] at hkj'
      by_cases hji : j' = i
      · exact hji
      · rw [if_neg hji] at hkj'
        by_cases hjf : j' = fi
        · rw [if_pos hjf] at hkj'
          exact absurd hkj' (habs i hi)
        · rw [if_neg hjf] at hkj'
          exact absurd hkj' (habs j' (by omega))
    rw [view_of_holder es' k i (by omega) (by rw [hkey i, if_pos rfl]) huq,
      hval i, if_pos rfl]
  · rw [if_neg hqk]
    refine view_corr es es' cap hsz hsz' huniq huniq' q hq ?_ ?_
    · intro t' ht' hkt
      by_cases hti : t' = i
      · refine ⟨fi, hfi, ?_, ?_⟩
        · rw [hkey fi, if_neg hfine, if_pos rfl, ← hti, hkt]
        · rw [hval fi, if_neg hfine, if_pos rfl, hti]
      · have htf : t' ≠ fi := fun hh => hq (by rw [← hkt, hh]; exact hfie)
        exact ⟨t', ht', by rw [hkey t', if_neg hti, if_neg htf]; exact hkt,
          by rw [hval t', if_neg hti, if_neg htf]⟩
    · intro t' ht' hkt
      rw [hkey t'] at hkt
      by_cases hti : t' = i
      · rw [if_pos hti] at hkt
        exact absurd hkt.symm hqk
      · rw [if_neg hti] at hkt
        by_cases htf : t' = fi
        · rw [if_pos htf] at hkt
          exact ⟨i, hi, hkt⟩
        · rw [if_neg htf] at hkt
          exact ⟨t', ht', hkt⟩

/-! ## Fresh tables, powers of two, and `hashmap_get` correctness -/

theorem keyAt_mkArray (n j : Nat) : keyAt (Array.mkArray n emptyEntry) j = 0 := by
  unfold keyAt
  by_cases h : j < n
  · rw [Array.getElem?_eq_getElem (by simpa using h)]
    simp [emptyEntry]
  · have hnone : (Array.mkArray n emptyEntry)[j]? = none := by
      simp [Array.getElem?_eq_none_iff]
      omega
    rw [hnone]
    simp [emptyEntry]

theorem view_mkArray (n q : Nat) (hq : q ≠ 0) :
    view (Array.mkArray n emptyEntry) q = 0 :=
  view_of_absent _ q (fun j _ => by rw [keyAt_mkArray]; exact fun hh => hq hh.symm)

theorem INV_freshTable (ns : Nat) (hpow : ns = 0 ∨ ns = 2 ^ Nat.log2 ns)
    (fb : Option Hashmap) : INV (freshTable ns fb) := by
  refine ⟨by simp [freshTable], hpow, by simp [freshTable], ?_, ?_, ?_⟩
  · intro x hx y hy h1
    exact absurd (keyAt_mkArray ns x) h1
  · intro r hr h1
    exact absurd (keyAt_mkArray ns r) h1
  · intro x hx h1
    exact absurd (keyAt_mkArray ns x) h1

theorem log2_two_pow (t : Nat) : Nat.log2 (2 ^ t) = t := by
  rw [Nat.log2_eq_log_two]
  have h2 : (1 : Nat) < 2 := one_lt_two
  exact Nat.log_pow h2 t

theorem pow2_double (cap : Nat) (h : cap = 2 ^ Nat.log2 cap) :
    cap * 2 = 2 ^ Nat.log2 (cap * 2) := by
  have h2 : cap * 2 = 2 ^ (Nat.log2 cap + 1) := by
    conv_lhs => rw [h]
    rw [pow_succ]
  rw [h2, log2_two_pow]

theorem pow2_half (cap : Nat) (h : cap = 2 ^ Nat.log2 cap) :
    cap / 2 = 0 ∨ cap / 2 = 2 ^ Nat.log2 (cap / 2) := by
  cases ht : Nat.log2 cap with
  | zero =>
    left
    rw [h, ht]
    decide
  | succ t =>
    right
    have h2 : cap / 2 = 2 ^ t := by
      rw [h, ht, pow_succ]
      exact Nat.mul_div_cancel _ (by norm_num)
    rw [h2, log2_two_pow]

theorem viewFrom_ne_zero (es : Array Entry) (q : Nat) :
    ∀ i, viewFrom es q i ≠ 0 →
      ∃ s, i ≤ s ∧ s < es.size ∧ keyAt es s = q ∧ valAt es s = viewFrom es q i := by
  intro i
  induction i using viewFrom.induct es q with
  | case1 i hlt hkey =>
    intro hne
    refine ⟨i, le_rfl, hlt, hkey, ?_⟩
    rw [viewFrom, dif_pos hlt, if_pos hkey]
  | case2 i hlt hkey ih =>
    intro hne
    rw [viewFrom, dif_pos hlt, if_neg hkey] at hne ⊢
    obtain ⟨s, h1, h2, h3, h4⟩ := ih hne
    exact ⟨s, by omega, h2, h3, h4⟩
  | case3 i hge =>
    intro hne
    rw [viewFrom, dif_neg hge] at hne
    exact absurd rfl hne

theorem view_ne_zero (es : Array Entry) (q : Nat) (hne : view es q ≠ 0) :
    ∃ s, s < es.size ∧ keyAt es s = q ∧ valAt es s = view es q := by
  obtain ⟨s, -, h2, h3, h4⟩ := viewFrom_ne_zero es q 0 hne
  exact ⟨s, h2, h3, h4⟩

/-- `hashmap_get` finds the value stored with a present key. -/
theorem get_holder (es : Array Entry) (cap : Nat) (cnt lf : Int)
    (fb : Option Hashmap) (hw : INV (.mk es cap cnt lf fb)) (k : Nat) (hk : k ≠ 0)
    (s : Nat) (hs : s < cap) (hks : keyAt es s = k) :
    hashmap_get (.mk es cap cnt lf fb) k = some (valAt es s) := by
  obtain ⟨e1, e2, e3⟩ := holder_cases es cap cnt lf fb hw k s hs hks hk
  obtain ⟨hsz, hpow, hlf, huniq, hchains, hrooted⟩ := hw
  have hcap : cap ≠ 0 := by omega
  have hr : homeIdx cap k < cap := homeIdx_lt cap k (hpow.resolve_left hcap) hcap
  obtain ⟨c1, c2, c3⟩ := hchains (homeIdx cap k) hr e1 e2
  obtain ⟨l, hcl⟩ : ∃ l, chainL es (cap + 1) (homeIdx cap k) = some l := by
    cases hclo : chainL es (cap + 1) (homeIdx cap k) with
    | none => exact absurd hclo c1
    | some l => exact ⟨l, rfl⟩
  rw [hcl] at c3 e3
  simp only [Option.getD_some] at c3 e3
  have hwalk : findKeyWalk es (es.size + 1) (homeIdx cap k) k =
      some (l.find? (fun j => keyAt es j == k)) := by
    rw [show es.size + 1 = cap + 1 by omega]
    exact findKeyWalk_along es (cap + 1) _ l k hcl
      (fun j hj => ⟨by have := (c3 j hj).1; omega, (c3 j hj).2.1⟩)
  cases hfind : l.find? (fun j => keyAt es j == k) with
  | none =>
    exact ((List.find?_eq_none.mp hfind s e3) (by simpa using hks)).elim
  | some x =>
    have hkx : keyAt es x = k := by simpa using List.find?_some hfind
    have hxl := List.mem_of_find?_eq_some hfind
    have hx : x < cap := (c3 x hxl).1
    obtain rfl : x = s := huniq x hx s hs (by rw [hkx]; exact hk) (by rw [hkx, hks])
    rw [hashmap_get.eq_def]
    dsimp only
    rw [if_pos (by omega : cap > 0), hwalk, hfind]
    simp [valAt]

/-- One `retry:` pass of `hashmap_set` on a well-formed nonempty table never
diverges: it either finishes (with the result and the pointwise view change
`setCore` computes) or requests a resize to double, half or equal capacity. -/
theorem setCore_sound (es : Array Entry) (cap : Nat) (cnt lf : Int)
    (fb : Option Hashmap) (hw : INV (.mk es cap cnt lf fb)) (k v : Nat)
    (hk : k ≠ 0) (hcap : cap ≠ 0) :
    (∃ old h', setCore (.mk es cap cnt lf fb) k v = .done old h' ∧
      INV h' ∧ h'.fallback = fb ∧ h'.capacity = cap ∧ old = view es k ∧
      (∀ q, q ≠ 0 → view h'.entries q = if q = k then v else view es q)) ∨
    (∃ ns, setCore (.mk es cap cnt lf fb) k v =
        .needResize (.mk es cap cnt (scanFree es lf) fb) ns ∧
      INV (.mk es cap cnt (scanFree es lf) fb) ∧
      (ns = cap * 2 ∨ ns = cap / 2 ∨ ns = cap)) := by
  obtain ⟨hsz, hpow, hlf, huniq, hchains, hrooted⟩ :=
    (id hw : INV (.mk es cap cnt lf fb))
  have hpow' : cap = 2 ^ Nat.log2 cap := hpow.resolve_left hcap
  have hi : homeIdx cap k < cap := homeIdx_lt cap k hpow' hcap
  have hisz : homeIdx cap k < es.size := by omega
  by_cases hempty : keyAt es (homeIdx cap k) = 0
  · have habs : ∀ j, j < cap → keyAt es j ≠ k :=
      absent_of_empty_home es cap cnt lf fb hw k hk hempty
    have hv0 : view es k = 0 := view_of_absent es k (fun j hj => habs j (by omega))
    by_cases hv : v = 0
    · have hsc : setCore (.mk es cap cnt lf fb) k v =
          .done 0 (.mk es cap cnt lf fb) := by
        rw [setCore.eq_def]
        dsimp only
        rw [getq_of_lt es _ hisz]
        dsimp only
        rw [if_pos hempty, if_pos hv]
      refine Or.inl ⟨0, _, hsc, hw, rfl, rfl, hv0.symm, fun q hq => ?_⟩
      show view es q = if q = k then v else view es q
      by_cases hqk : q = k
      · rw [if_pos hqk, hqk, hv0, hv]
      · rw [if_neg hqk]
    · have hsc : setCore (.mk es cap cnt lf fb) k v =
          .done 0 (.mk (es.set! (homeIdx cap k) ⟨k, v, none⟩) cap (cnt + 1) lf fb) := by
        rw [setCore.eq_def]
        dsimp only
        rw [getq_of_lt es _ hisz]
        dsimp only
        rw [if_pos hempty, if_neg hv]
      obtain ⟨hw', -, hview⟩ :=
        insert_empty_spec es cap cnt lf (cnt + 1) fb hw k v hk hcap hempty
      exact Or.inl ⟨0, _, hsc, hw', rfl, rfl, hv0.symm, hview⟩
  · by_cases hii : homeIdx cap (keyAt es (homeIdx cap k)) = homeIdx cap k
    · -- the home occupant sits in its main position: the update scan runs
      obtain ⟨c1, c2, c3⟩ := hchains (homeIdx cap k) hi hempty hii
      obtain ⟨l, hcl⟩ : ∃ l, chainL es (cap + 1) (homeIdx cap k) = some l := by
        cases hclo : chainL es (cap + 1) (homeIdx cap k) with
        | none => exact absurd hclo c1
        | some l => exact ⟨l, rfl⟩
      rw [hcl] at c2 c3
      simp only [Option.getD_some] at c2 c3
      have hwalk : findKeyWalk es (es.size + 1) (homeIdx cap k) k =
          some (l.find? (fun j => keyAt es j == k)) := by
        rw [show es.size + 1 = cap + 1 by omega]
        exact findKeyWalk_along es (cap + 1) _ l k hcl
          (fun j hj => ⟨by have := (c3 j hj).1; omega, (c3 j hj).2.1⟩)
      cases hfind : l.find? (fun j => keyAt es j == k) with
      | some j =>
        have hkj : keyAt es j = k := by simpa using List.find?_some hfind
        have hjl := List.mem_of_find?_eq_some hfind
        have hj : j < cap := (c3 j hjl).1
        have hjsz : j < es.size := by omega
        have hsc : setCore (.mk es cap cnt lf fb) k v =
            .done (valAt es j) (.mk (es.set! j ⟨keyAt es j, v, nextAt es j⟩) cap
              (cnt + (if v ≠ 0 then 1 else 0) + (if valAt es j ≠ 0 then -1 else 0))
              lf fb) := by
          rw [setCore.eq_def]
          dsimp only
          rw [getq_of_lt es _ hisz]
          dsimp only
          rw [if_neg hempty, if_pos hii, hwalk, hfind]
          dsimp only
          rw [getq_of_lt es j hjsz]
          simp only [Option.getD_some]
        obtain ⟨hw', hvk, hview⟩ :=
          update_spec es cap cnt lf _ fb hw k v hk j hj hkj
        exact Or.inl ⟨valAt es j, _, hsc, hw', rfl, rfl, hvk.symm, hview⟩
      | none =>
        have habs : ∀ t, t < cap → keyAt es t ≠ k := by
          intro t ht hkt
          have hmem := (holder_cases es cap cnt lf fb hw k t ht hkt hk).2.2
          rw [hcl] at hmem
          simp only [Option.getD_some] at hmem
          exact (List.find?_eq_none.mp hfind t hmem) (by simpa using hkt)
        have hv0 : view es k = 0 := view_of_absent es k (fun j hj => habs j (by omega))
        by_cases hneg : scanFree es lf < 0
        · have hsc : setCore (.mk es cap cnt lf fb) k v =
              .needResize (.mk es cap cnt (scanFree es lf) fb)
                (if cnt + 1 > (cap : Int) then cap * 2
                 else if cnt + 1 ≤ (cap : Int) / 2 then cap / 2 else cap) := by
            rw [setCore.eq_def]
            dsimp only
            rw [getq_of_lt es _ hisz]
            dsimp only
            rw [if_neg hempty, if_pos hii, hwalk, hfind]
            dsimp only
            rw [if_pos hneg]
          refine Or.inr ⟨_, hsc, ⟨hsz, hpow, by omega, huniq, hchains, hrooted⟩, ?_⟩
          by_cases hg : cnt + 1 > (cap : Int)
          · rw [if_pos hg]; exact Or.inl rfl
          · rw [if_neg hg]
            by_cases hh : cnt + 1 ≤ (cap : Int) / 2
            · rw [if_pos hh]; exact Or.inr (Or.inl rfl)
            · rw [if_neg hh]; exact Or.inr (Or.inr rfl)
        · push_neg at hneg
          have hfound := scanFreeNat_found es ((lf + 1).toNat) (by
            rw [scanFree] at hneg; exact hneg)
          have hfie : keyAt es ((scanFree es lf).toNat) = 0 := by
            rw [scanFree]; exact hfound.1
          have hle := scanFreeNat_le es ((lf + 1).toNat)
          have hfi : (scanFree es lf).toNat < cap := by
            rw [scanFree]; omega
          have hlfcap : scanFree es lf < (cap : Int) := by
            rw [scanFree]; omega
          have hsc : setCore (.mk es cap cnt lf fb) k v =
              .done 0 (.mk ((es.set! ((scanFree es lf).toNat)
                  ⟨k, v, nextAt es (homeIdx cap k)⟩).set! (homeIdx cap k)
                  ⟨keyAt es (homeIdx cap k), valAt es (homeIdx cap k),
                    some ((scanFree es lf).toNat)⟩) cap (cnt + 1)
                (scanFree es lf) fb) := by
            rw [setCore.eq_def]
            dsimp only
            rw [getq_of_lt es _ hisz]
            dsimp only
            rw [if_neg hempty, if_pos hii, hwalk, hfind]
            dsimp only
            rw [if_neg (by omega : ¬ scanFree es lf < 0)]
            rw [if_pos hii]
          obtain ⟨hw', -, hview⟩ :=
            splice_spec es cap cnt lf (cnt + 1) (scanFree es lf) fb hw k v hk hcap
              hempty hii habs ((scanFree es lf).toNat) hfi hfie hlfcap
          exact Or.inl ⟨0, _, hsc, hw', rfl, rfl, hv0.symm, hview⟩
    · -- the home occupant belongs to another chain: no update scan
      have habs : ∀ t, t < cap → keyAt es t ≠ k :=
        absent_of_alien_home es cap cnt lf fb hw k hk hii
      have hv0 : view es k = 0 := view_of_absent es k (fun j hj => habs j (by omega))
      by_cases hneg : scanFree es lf < 0
      · have hsc : setCore (.mk es cap cnt lf fb) k v =
            .needResize (.mk es cap cnt (scanFree es lf) fb)
              (if cnt + 1 > (cap : Int) then cap * 2
               else if cnt + 1 ≤ (cap : Int) / 2 then cap / 2 else cap) := by
          rw [setCore.eq_def]
          dsimp only
          rw [getq_of_lt es _ hisz]
          dsimp only
          rw [if_neg hempty, if_neg hii]
          dsimp only
          rw [if_pos hneg]
        refine Or.inr ⟨_, hsc, ⟨hsz, hpow, by omega, huniq, hchains, hrooted⟩, ?_⟩
        by_cases hg : cnt + 1 > (cap : Int)
        · rw [if_pos hg]; exact Or.inl rfl
        · rw [if_neg hg]
          by_cases hh : cnt + 1 ≤ (cap : Int) / 2
          · rw [if_pos hh]; exact Or.inr (Or.inl rfl)
          · rw [if_neg hh]; exact Or.inr (Or.inr rfl)
      · push_neg at hneg
        have hfound := scanFreeNat_found es ((lf + 1).toNat) (by
          rw [scanFree] at hneg; exact hneg)
        have hfie : keyAt es ((scanFree es lf).toNat) = 0 := by
          rw [scanFree]; exact hfound.1
        have hle := scanFreeNat_le es ((lf + 1).toNat)
        have hfi : (scanFree es lf).toNat < cap := by
          rw [scanFree]; omega
        have hlfcap : scanFree es lf < (cap : Int) := by
          rw [scanFree]; omega
        -- locate the displaced occupant's predecessor along its rooted chain
        obtain ⟨e1, e2, e3⟩ := hrooted (homeIdx cap k) hi hempty
        have hi2 : homeIdx cap (keyAt es (homeIdx cap k)) < cap :=
          homeIdx_lt cap _ hpow' hcap
        obtain ⟨c1, c2, c3⟩ := hchains _ hi2 e1 e2
        obtain ⟨l, hcl⟩ : ∃ l, chainL es (cap + 1)
            (homeIdx cap (keyAt es (homeIdx cap k))) = some l := by
          cases hclo : chainL es (cap + 1) (homeIdx cap (keyAt es (homeIdx cap k))) with
          | none => exact absurd hclo c1
          | some l => exact ⟨l, rfl⟩
        rw [hcl] at c2 c3 e3
        simp only [Option.getD_some] at c2 c3 e3
        obtain ⟨l₁, l₂, hlform⟩ := List.append_of_mem e3
        have hl₁ne : l₁ ≠ [] := by
          intro hh
          obtain ⟨t0, ht0⟩ := chainL_head es _ _ _ hcl
          rw [hlform, hh] at ht0
          simp only [List.nil_append, List.cons.injEq] at ht0
          exact hii ht0.1.symm
        obtain ⟨la, p0, hl₁⟩ : ∃ la p0, l₁ = la ++ [p0] := by
          rcases List.eq_nil_or_concat l₁ with hh | ⟨la, p0, hh⟩
          · exact absurd hh hl₁ne
          · exact ⟨la, p0, by simpa [List.concat_eq_append] using hh⟩
        have hform : l = la ++ p0 :: homeIdx cap k :: l₂ := by
          rw [hlform, hl₁]; simp
        rw [hform] at hcl c2 c3
        obtain ⟨hila, hip0, hil₂, hp0la, hp0l₂, hlaNd, hl₂Nd⟩ :=
          nodup_split la l₂ p0 (homeIdx cap k) c2
        have hmemsz : ∀ j ∈ la ++ p0 :: homeIdx cap k :: l₂, j < es.size := by
          intro j hj
          have := (c3 j hj).1
          omega
        have hprev := findPrev_along es la (cap + 1) _ p0 (homeIdx cap k) l₂ hcl
          hmemsz hila (fun hh => hip0 hh)
        obtain ⟨hp0lt, hp0occ, hp0home⟩ := c3 p0 (by simp)
        have hp0sz : p0 < es.size := by omega
        have hp0fi : (scanFree es lf).toNat ≠ p0 :=
          fun hh => hp0occ (by rw [← hh]; exact hfie)
        have hsc : setCore (.mk es cap cnt lf fb) k v =
            .done 0 (.mk (((es.set! ((scanFree es lf).toNat)
                ⟨keyAt es (homeIdx cap k), valAt es (homeIdx cap k),
                  nextAt es (homeIdx cap k)⟩).set! p0
                ⟨keyAt es p0, valAt es p0, some ((scanFree es lf).toNat)⟩).set!
                (homeIdx cap k) ⟨k, v, none⟩) cap (cnt + 1)
              (scanFree es lf) fb) := by
          rw [setCore.eq_def]
          dsimp only
          rw [getq_of_lt es _ hisz]
          dsimp only
          rw [if_neg hempty, if_neg hii]
          dsimp only
          rw [if_neg (by omega : ¬ scanFree es lf < 0)]
          rw [if_neg hii, show es.size + 1 = cap + 1 by omega, hprev]
          dsimp only
          rw [getq_setE_ne es ((scanFree es lf).toNat) p0 _ hp0fi,
            getq_of_lt es p0 hp0sz]
          simp only [Option.getD_some]
        obtain ⟨hw', -, hview⟩ :=
          relocate_spec es cap cnt lf (cnt + 1) (scanFree es lf) fb hw k v hk hcap
            hempty hii ((scanFree es lf).toNat) hfi hfie p0
            (by rw [show es.size + 1 = cap + 1 by omega]; exact hprev) hlfcap
        exact Or.inl ⟨0, _, hsc, hw', rfl, rfl, hv0.symm, hview⟩

theorem keyAt_lt (es : Array Entry) (i : Nat) (h : i < es.size) :
    keyAt es i = es[i].key := by
  simp [keyAt, Array.getElem?_eq_getElem h]

theorem valAt_lt (es : Array Entry) (i : Nat) (h : i < es.size) :
    valAt es i = es[i].val := by
  simp [valAt, Array.getElem?_eq_getElem h]

theorem setCore_div (es : Array Entry) (cap : Nat) (cnt lf : Int)
    (fb : Option Hashmap) (k v : Nat) (h : es.size ≤ homeIdx cap k) :
    setCore (.mk es cap cnt lf fb) k v = .diverged := by
  have hnone : es[homeIdx cap k]? = none := by
    simp [Array.getElem?_eq_none_iff]
    omega
  rw [setCore.eq_def]
  dsimp only
  rw [hnone]

/-- `hashmap_set` correctness, given correctness of the retry loop at the same
fuel (the function calls `setLoop` without consuming fuel). -/
theorem hashmap_set_sound_of (fuel : Nat)
    (IH : ∀ h k v old h', INV h → k ≠ 0 → setLoop fuel h k v = some (old, h') →
      INV h' ∧ h'.fallback = h.fallback ∧ old = view h.entries k ∧
      (∀ q, q ≠ 0 → view h'.entries q = if q = k then v else view h.entries q)) :
    ∀ h k v old h', INV h → hashmap_set fuel h k v = some (old, h') →
      INV h' ∧ h'.fallback = h.fallback ∧
      (k = 0 → h' = h ∧ old = 0) ∧
      (k ≠ 0 → old = view h.entries k ∧
        (∀ q, q ≠ 0 → view h'.entries q = if q = k then v else view h.entries q)) := by
  intro h k v old h' hw hset
  rw [hashmap_set.eq_def] at hset
  dsimp only at hset
  by_cases hk0 : k = 0
  · rw [if_pos hk0] at hset
    obtain ⟨rfl, rfl⟩ : old = 0 ∧ h = h' := by
      constructor <;> [skip; skip] <;> injection hset with h1 <;>
        injection h1 with h2 h3 <;> simp_all
    exact ⟨hw, rfl, fun _ => ⟨rfl, rfl⟩, fun hne => absurd hk0 hne⟩
  · rw [if_neg hk0] at hset
    by_cases hc0 : h.capacity = 0
    · rw [if_pos hc0] at hset
      have hw1 : INV (freshTable 16 h.fallback) :=
        INV_freshTable 16 (Or.inr (by rw [show (16 : Nat) = 2 ^ 4 by norm_num, log2_two_pow])) h.fallback
      obtain ⟨hi1, hi2, hi3, hi4⟩ := IH _ k v old h' hw1 hk0 hset
      have hsz0 : h.entries.size = 0 := by
        cases h with
        | mk es cap cnt lf fb =>
          have h1 := (id hw : INV (.mk es cap cnt lf fb)).1
          have h2 : cap = 0 := hc0
          show es.size = 0
          omega
      have hview0 : ∀ q, view h.entries q = viewFrom h.entries q 0 := fun q => rfl
      have habs : ∀ q, q ≠ 0 → view h.entries q = 0 :=
        fun q hq => view_of_absent h.entries q (fun j hj => by omega)
      have hfv : ∀ q, q ≠ 0 → view (freshTable 16 h.fallback).entries q = 0 :=
        fun q hq => view_mkArray 16 q hq
      refine ⟨hi1, hi2.trans rfl, fun hk => absurd hk hk0, fun _ => ?_⟩
      constructor
      · rw [hi3, hfv k hk0, habs k hk0]
      · intro q hq
        rw [hi4 q hq, hfv q hq, habs q hq]
    · rw [if_neg hc0] at hset
      obtain ⟨hi1, hi2, hi3, hi4⟩ := IH _ k v old h' hw hk0 hset
      exact ⟨hi1, hi2, fun hk => absurd hk hk0, fun _ => ⟨hi3, hi4⟩⟩

/-- The rehash loop re-inserts the occupied entries of the old array one by
one: the resulting table is well formed and its view maps each old key to its
old value and every other key to its prior association. -/
theorem rehashLoop_sound_of (fuel : Nat)
    (IH : ∀ h k v old h', INV h → k ≠ 0 → setLoop fuel h k v = some (old, h') →
      INV h' ∧ h'.fallback = h.fallback ∧ old = view h.entries k ∧
      (∀ q, q ≠ 0 → view h'.entries q = if q = k then v else view h.entries q))
    (old : Array Entry)
    (huq : ∀ i j (hi : i < old.size) (hj : j < old.size), old[i].key ≠ 0 →
      old[i].key = old[j].key → i = j) :
    ∀ m n h h'', old.size - n ≤ m → INV h →
      rehashLoop fuel h old n = some h'' →
      INV h'' ∧ h''.fallback = h.fallback ∧
      ∀ q, q ≠ 0 →
        ((∀ j (hj : j < old.size), n ≤ j → old[j].key ≠ q) →
          view h''.entries q = view h.entries q) ∧
        (∀ j (hj : j < old.size), n ≤ j → old[j].key = q →
          view h''.entries q = old[j].val) := by
  intro m
  induction m with
  | zero =>
    intro n h h'' hle hw hrun
    rw [rehashLoop.eq_def] at hrun
    dsimp only at hrun
    rw [dif_neg (by omega : ¬ n < old.size)] at hrun
    obtain rfl : h = h'' := by injection hrun
    exact ⟨hw, rfl, fun q hq => ⟨fun _ => rfl, fun j hj hnj => by omega⟩⟩
  | succ m ih =>
    intro n h h'' hle hw hrun
    rw [rehashLoop.eq_def] at hrun
    dsimp only at hrun
    by_cases hlt : n < old.size
    · rw [dif_pos hlt] at hrun
      by_cases hkey : old[n].key ≠ 0
      · rw [if_pos hkey] at hrun
        cases hset : hashmap_set fuel h old[n].key old[n].val with
        | none => rw [hset] at hrun; exact absurd hrun (by simp)
        | some pr =>
          obtain ⟨o1, h1⟩ := pr
          rw [hset] at hrun
          dsimp only at hrun
          obtain ⟨hs1, hs2, -, hs4⟩ :=
            hashmap_set_sound_of fuel IH h _ _ o1 h1 hw hset
          obtain ⟨hs4a, hs4b⟩ := hs4 hkey
          obtain ⟨hr1, hr2, hr3⟩ := ih (n + 1) h1 h'' (by omega) hs1 hrun
          refine ⟨hr1, hr2.trans hs2, fun q hq => ⟨?_, ?_⟩⟩
          · intro habs
            obtain ⟨hra, -⟩ := hr3 q hq
            rw [hra (fun j hj hnj => habs j hj (by omega)), hs4b q hq,
              if_neg (fun hh : q = old[n].key => habs n hlt le_rfl hh.symm)]
          · intro j hj hnj hkj
            rcases Nat.eq_or_lt_of_le hnj with rfl | hgt
            · obtain ⟨hra, -⟩ := hr3 q hq
              rw [hra (fun j' hj' hnj' hkj' => by
                  have := huq n j' hlt hj' hkey (hkj.trans hkj'.symm)
                  omega),
                hs4b q hq, if_pos hkj.symm]
            · obtain ⟨-, hrb⟩ := hr3 q hq
              exact hrb j hj (by omega) hkj
      · rw [if_neg hkey] at hrun
        push_neg at hkey
        obtain ⟨hr1, hr2, hr3⟩ := ih (n + 1) h h'' (by omega) hw hrun
        refine ⟨hr1, hr2, fun q hq => ⟨?_, ?_⟩⟩
        · intro habs
          exact (hr3 q hq).1 (fun j hj hnj => habs j hj (by omega))
        · intro j hj hnj hkj
          rcases Nat.eq_or_lt_of_le hnj with rfl | hgt
          · exact absurd (hkj ▸ hkey) hq
          · exact (hr3 q hq).2 j hj (by omega) hkj
    · rw [dif_neg hlt] at hrun
      obtain rfl : h = h'' := by injection hrun
      exact ⟨hw, rfl, fun q hq => ⟨fun _ => rfl, fun j hj hnj => by omega⟩⟩

/-- Correctness of the retry loop of `hashmap_set`, by induction on the resize
fuel: when it completes, the table is still well formed, the returned pointer
is the key's prior association, and the view is updated pointwise — across any
resizes triggered in between. -/
theorem setLoop_sound : ∀ fuel h k v old h', INV h → k ≠ 0 →
    setLoop fuel h k v = some (old, h') →
    INV h' ∧ h'.fallback = h.fallback ∧ old = view h.entries k ∧
    (∀ q, q ≠ 0 → view h'.entries q = if q = k then v else view h.entries q) := by
  intro fuel
  induction fuel with
  | zero =>
    intro h k v old h' hw hk hrun
    rw [setLoop.eq_def] at hrun
    exact absurd hrun (by simp)
  | succ f ihf =>
    intro h k v old h' hw hk hrun
    cases h with
    | mk es cap cnt lf fb =>
      rw [setLoop.eq_def] at hrun
      dsimp only at hrun
      by_cases hcap : cap = 0
      · have hsz0 : es.size = 0 := by
          have := (id hw : INV (.mk es cap cnt lf fb)).1
          omega
        rw [setCore_div es cap cnt lf fb k v (by omega)] at hrun
        exact absurd hrun (by simp)
      · rcases setCore_sound es cap cnt lf fb hw k v hk hcap with
          ⟨old0, h0, hsc, hw0, hfb0, hcap0, hold0, hview0⟩ |
          ⟨ns, hsc, hwr, hns⟩
        · rw [hsc] at hrun
          dsimp only at hrun
          obtain ⟨rfl, rfl⟩ : old0 = old ∧ h0 = h' := by
            injection hrun with h1
            injection h1 with h2 h3
            exact ⟨h2, h3⟩
          exact ⟨hw0, hfb0, hold0, hview0⟩
        · rw [hsc] at hrun
          dsimp only at hrun
          rw [hashmap_resize.eq_def] at hrun
          dsimp only [Hashmap.fallback, Hashmap.entries] at hrun
          cases hres : rehashLoop f (freshTable ns fb) es 0 with
          | none => rw [hres] at hrun; exact absurd hrun (by simp)
          | some h2 =>
            rw [hres] at hrun
            dsimp only at hrun
            have hwfresh : INV (freshTable ns fb) := by
              refine INV_freshTable ns ?_ fb
              have hpow : cap = 2 ^ Nat.log2 cap :=
                ((id hwr : INV (.mk es cap cnt (scanFree es lf) fb)).2.1).resolve_left hcap
              rcases hns with rfl | rfl | rfl
              · exact Or.inr (pow2_double cap hpow)
              · exact pow2_half cap hpow
              · exact Or.inr hpow
            have hsz : es.size = cap :=
              (id hwr : INV (.mk es cap cnt (scanFree es lf) fb)).1
            have huniq : uniqP es cap :=
              (id hwr : INV (.mk es cap cnt (scanFree es lf) fb)).2.2.2.1
            have huq : ∀ i j (hi : i < es.size) (hj : j < es.size),
                es[i].key ≠ 0 → es[i].key = es[j].key → i = j := by
              intro i j hi hj h1 h2
              rw [← keyAt_lt es i hi] at h1 h2
              rw [← keyAt_lt es j hj] at h2
              exact huniq i (by omega) j (by omega) h1 h2
            obtain ⟨hr1, hr2, hr3⟩ := rehashLoop_sound_of f ihf es huq
              es.size 0 (freshTable ns fb) h2 (by omega) hwfresh hres
            have hviewpres : ∀ q, q ≠ 0 → view h2.entries q = view es q := by
              intro q hq
              by_cases hex : ∃ s, s < es.size ∧ keyAt es s = q
              · obtain ⟨sq, hsq, hksq⟩ := hex
                obtain ⟨-, hrb⟩ := hr3 q hq
                rw [hrb sq hsq (by omega) (by rw [← keyAt_lt es sq hsq]; exact hksq)]
                rw [← valAt_lt es sq hsq]
                exact (view_of_holder es q sq hsq hksq (fun t ht hkt =>
                  (huniq sq (by omega) t (by omega) (by rw [hksq]; exact hq)
                    (by rw [hksq, hkt])).symm)).symm
              · push_neg at hex
                obtain ⟨hra, -⟩ := hr3 q hq
                rw [hra (fun j hj hnj => by
                    rw [← keyAt_lt es j hj]
                    exact hex j hj)]
                rw [view_of_absent es q (fun j hj => hex j hj)]
                exact view_mkArray ns q hq
            obtain ⟨hl1, hl2, hl3, hl4⟩ := ihf h2 k v old h' hr1 hk hrun
            refine ⟨hl1, hl2.trans hr2, ?_, ?_⟩
            · exact hl3.trans (hviewpres k hk)
            · intro q hq
              exact (hl4 q hq).trans (by rw [hviewpres q hq]; rfl)

/-- `hashmap_set` correctness at every fuel. -/
theorem hashmap_set_sound (fuel : Nat) :
    ∀ h k v old h', INV h → hashmap_set fuel h k v = some (old, h') →
      INV h' ∧ h'.fallback = h.fallback ∧
      (k = 0 → h' = h ∧ old = 0) ∧
      (k ≠ 0 → old = view h.entries k ∧
        (∀ q, q ≠ 0 → view h'.entries q = if q = k then v else view h.entries q)) :=
  hashmap_set_sound_of fuel (setLoop_sound fuel)

/-! ## Operation sequences and the claim theorems for the map -/

/-- A workload: a sequence of `hashmap_set(k, v)` calls, each run with the
given resize fuel. -/
def runOps (fuel : Nat) : Hashmap → List (Nat × Nat) → Option Hashmap
  | h, [] => some h
  | h, (k, v) :: ops =>
    match hashmap_set fuel h k v with
    | none => none
    | some (_, h') => runOps fuel h' ops

/-- The logical association after a workload: the last value set for each key. -/
theorem runOps_sound (fuel : Nat) :
    ∀ ops h h', INV h → runOps fuel h ops = some h' →
      INV h' ∧ h'.fallback = h.fallback ∧
      ∀ q, q ≠ 0 → view h'.entries q =
        ops.foldl (fun acc kv => if kv.1 = q then kv.2 else acc)
          (view h.entries q) := by
  intro ops
  induction ops with
  | nil =>
    intro h h' hw hrun
    obtain rfl : h = h' := by
      rw [runOps.eq_def] at hrun
      injection hrun
    exact ⟨hw, rfl, fun q hq => rfl⟩
  | cons kv ops ih =>
    obtain ⟨k0, v0⟩ := kv
    intro h h' hw hrun
    rw [runOps.eq_def] at hrun
    dsimp only at hrun
    cases hset : hashmap_set fuel h k0 v0 with
    | none => rw [hset] at hrun; exact absurd hrun (by simp)
    | some pr =>
      obtain ⟨o1, h1⟩ := pr
      rw [hset] at hrun
      dsimp only at hrun
      obtain ⟨hs1, hs2, hs3, hs4⟩ := hashmap_set_sound fuel h k0 v0 o1 h1 hw hset
      obtain ⟨hr1, hr2, hr3⟩ := ih h1 h' hs1 hrun
      refine ⟨hr1, hr2.trans hs2, fun q hq => ?_⟩
      rw [List.foldl_cons]
      rw [hr3 q hq]
      by_cases hk0 : k0 = 0
      · obtain ⟨rfl, -⟩ := hs3 hk0
        rw [if_neg (fun hh : k0 = q => hq (hh ▸ hk0))]
      · obtain ⟨-, hs4b⟩ := hs4 hk0
        rw [hs4b q hq]
        by_cases hqk : q = k0
        · rw [if_pos hqk, if_pos hqk.symm]
        · rw [if_neg hqk, if_neg (fun hh : k0 = q => hqk hh.symm)]

theorem foldl_no_touch (k : Nat) :
    ∀ (l : List (Nat × Nat)) (acc : Nat), (∀ kv ∈ l, kv.1 ≠ k) →
      l.foldl (fun acc kv => if kv.1 = k then kv.2 else acc) acc = acc := by
  intro l
  induction l with
  | nil => intro acc _; rfl
  | cons kv l ih =>
    intro acc hne
    rw [List.foldl_cons, if_neg (hne kv (by simp))]
    exact ih acc (fun kv' h' => hne kv' (by simp [h']))

/-- A present, non-null association is what `hashmap_get` returns. -/
theorem get_view (h : Hashmap) (hw : INV h) (k : Nat) (hk : k ≠ 0)
    (hv : view h.entries k ≠ 0) : hashmap_get h k = some (view h.entries k) := by
  cases h with
  | mk es cap cnt lf fb =>
    obtain ⟨s, hs, hks, hvs⟩ := view_ne_zero es k hv
    have hscap : s < cap := by
      have := (id hw : INV (.mk es cap cnt lf fb)).1
      omega
    rw [get_holder es cap cnt lf fb hw k hk s hscap hks, hvs]
    rfl

/-- C1: after a workload in which `set(k,v)` is performed with non-null `k`
and `v` and `k` is not subsequently overwritten, `hashmap_get` on the
resulting table returns `v`, across any resizes triggered in between. -/
theorem C1_round_trip (fuel : Nat) (h0 : Hashmap) (pre post : List (Nat × Nat))
    (k v : Nat) (h' : Hashmap) (hw : INV h0) (hk : k ≠ 0) (hv : v ≠ 0)
    (hpost : ∀ kv ∈ post, kv.1 ≠ k)
    (hrun : runOps fuel h0 (pre ++ (k, v) :: post) = some h') :
    hashmap_get h' k = some v := by
  obtain ⟨hw', hfb, hview⟩ := runOps_sound fuel _ h0 h' hw hrun
  have hvk : view h'.entries k = v := by
    rw [hview k hk, List.foldl_append, List.foldl_cons, if_pos rfl]
    exact foldl_no_touch k post v hpost
  rw [get_view h' hw' k hk (by rw [hvk]; exact hv), hvk]

theorem C1_round_trip_witness :
    INV (mkEmpty none) ∧ (160 : Nat) ≠ 0 ∧ (7 : Nat) ≠ 0 ∧
    (∀ kv ∈ [((672 : Nat), (5 : Nat))], kv.1 ≠ 160) ∧
    runOps 1 (mkEmpty none) ([] ++ (160, 7) :: [(672, 5)]) =
      some ((runOps 1 (mkEmpty none)
        ([] ++ (160, 7) :: [(672, 5)])).getD (mkEmpty none)) ∧
    hashmap_get ((runOps 1 (mkEmpty none)
      ([] ++ (160, 7) :: [(672, 5)])).getD (mkEmpty none)) 160 = some 7 :=
  ⟨INV_mkEmpty none, by decide, by decide, by decide,
    by simp only [runOps, hashmap_set, setLoop]; rfl,
    C1_round_trip 1 (mkEmpty none) [] [(672, 5)] 160 7 _
      (INV_mkEmpty none) (by decide) (by decide) (by decide)
      (by simp only [runOps, hashmap_set, setLoop]; rfl)⟩

theorem findKeyWalk_stop (es : Array Entry) (f i key : Nat) (hi : i < es.size)
    (h0 : keyAt es i = 0) : findKeyWalk es (f + 1) i key = some none := by
  rw [findKeyWalk, getq_of_lt es i hi]
  dsimp only
  rw [if_pos h0]

/-- The chain walk from the home slot of a key stored nowhere ends empty. -/
theorem findKeyWalk_absent (es : Array Entry) (cap : Nat) (cnt lf : Int)
    (fb : Option Hashmap) (hw : INV (.mk es cap cnt lf fb)) (k : Nat)
    (hk : k ≠ 0) (hcap : cap ≠ 0) (habs : ∀ j, j < cap → keyAt es j ≠ k) :
    findKeyWalk es (es.size + 1) (homeIdx cap k) k = some none := by
  obtain ⟨hsz, hpow, hlf, huniq, hchains, hrooted⟩ :=
    (id hw : INV (.mk es cap cnt lf fb))
  have hpow' : cap = 2 ^ Nat.log2 cap := hpow.resolve_left hcap
  have hi : homeIdx cap k < cap := homeIdx_lt cap k hpow' hcap
  by_cases hocc : keyAt es (homeIdx cap k) = 0
  · rw [show es.size + 1 = es.size + 1 from rfl]
    exact findKeyWalk_stop es es.size _ k (by omega) hocc
  · obtain ⟨e1, e2, e3⟩ := hrooted (homeIdx cap k) hi hocc
    have hr : homeIdx cap (keyAt es (homeIdx cap k)) < cap :=
      homeIdx_lt cap _ hpow' hcap
    obtain ⟨c1, c2, c3⟩ := hchains _ hr e1 e2
    obtain ⟨l, hcl⟩ : ∃ l, chainL es (cap + 1)
        (homeIdx cap (keyAt es (homeIdx cap k))) = some l := by
      cases hclo : chainL es (cap + 1) (homeIdx cap (keyAt es (homeIdx cap k))) with
      | none => exact absurd hclo c1
      | some l => exact ⟨l, rfl⟩
    rw [hcl] at c3 e3
    simp only [Option.getD_some] at c3 e3
    obtain ⟨l₂, hsuf, l₁, rfl⟩ := chainL_mem_suffix es (cap + 1) _ _ l hcl e3
    have hmem : ∀ j ∈ homeIdx cap k :: l₂, j < es.size ∧ keyAt es j ≠ 0 := by
      intro j hj
      have := c3 j (by simp [hj])
      exact ⟨by omega, this.2.1⟩
    have hwalk := findKeyWalk_along es (cap + 1) _ _ k hsuf hmem
    rw [show es.size + 1 = cap + 1 by omega, hwalk]
    congr 1
    rw [List.find?_eq_none]
    intro x hx
    have hxc := (c3 x (by simp [hx])).1
    simpa using habs x hxc

/-- `setCore` takes the in-place update branch when the key is present. -/
theorem setCore_update_case (es : Array Entry) (cap : Nat) (cnt lf : Int)
    (fb : Option Hashmap) (hw : INV (.mk es cap cnt lf fb)) (k v j : Nat)
    (hk : k ≠ 0) (hj : j < cap) (hkj : keyAt es j = k) :
    setCore (.mk es cap cnt lf fb) k v =
      .done (valAt es j) (.mk (es.set! j ⟨keyAt es j, v, nextAt es j⟩) cap
        (cnt + (if v ≠ 0 then 1 else 0) + (if valAt es j ≠ 0 then -1 else 0))
        lf fb) := by
  obtain ⟨e1, e2, e3⟩ := holder_cases es cap cnt lf fb hw k j hj hkj hk
  obtain ⟨hsz, hpow, hlf, huniq, hchains, hrooted⟩ :=
    (id hw : INV (.mk es cap cnt lf fb))
  have hcap : cap ≠ 0 := by omega
  have hpow' : cap = 2 ^ Nat.log2 cap := hpow.resolve_left hcap
  have hi : homeIdx cap k < cap := homeIdx_lt cap k hpow' hcap
  have hisz : homeIdx cap k < es.size := by omega
  obtain ⟨c1, c2, c3⟩ := hchains (homeIdx cap k) hi e1 e2
  obtain ⟨l, hcl⟩ : ∃ l, chainL es (cap + 1) (homeIdx cap k) = some l := by
    cases hclo : chainL es (cap + 1) (homeIdx cap k) with
    | none => exact absurd hclo c1
    | some l => exact ⟨l, rfl⟩
  rw [hcl] at c3 e3
  simp only [Option.getD_some] at c3 e3
  have hwalk : findKeyWalk es (es.size + 1) (homeIdx cap k) k =
      some (l.find? (fun t => keyAt es t == k)) := by
    rw [show es.size + 1 = cap + 1 by omega]
    exact findKeyWalk_along es (cap + 1) _ l k hcl
      (fun t ht => ⟨by have := (c3 t ht).1; omega, (c3 t ht).2.1⟩)
  cases hfind : l.find? (fun t => keyAt es t == k) with
  | none =>
    exact ((List.find?_eq_none.mp hfind j e3) (by simpa using hkj)).elim
  | some x =>
    have hkx : keyAt es x = k := by simpa using List.find?_some hfind
    have hxl := List.mem_of_find?_eq_some hfind
    have hx : x < cap := (c3 x hxl).1
    obtain rfl : x = j := huniq x hx j hj (by rw [hkx]; exact hk) (by rw [hkx, hkj])
    rw [setCore.eq_def]
    dsimp only
    rw [getq_of_lt es _ hisz]
    dsimp only
    rw [if_neg e1, if_pos e2, hwalk, hfind]
    dsimp only
    rw [getq_of_lt es x (by omega)]
    simp only [Option.getD_some]

/-- C2: inserting distinct non-null keys that all share one home slot of the
fresh 16-slot table (adversarial collisions, N ≤ capacity−1) and then looking
each key up returns each key's own value. -/
theorem C2_collision_lookups (fuel : Nat) (ops : List (Nat × Nat)) (h' : Hashmap)
    (hN : ops.length ≤ 15)
    (hdist : ops.Pairwise (fun a b => a.1 ≠ b.1))
    (hkeys : ∀ kv ∈ ops, kv.1 ≠ 0 ∧ kv.2 ≠ 0)
    (hsame : ∀ kv ∈ ops, ∀ kv2 ∈ ops, homeIdx 16 kv.1 = homeIdx 16 kv2.1)
    (hrun : runOps fuel (mkEmpty none) ops = some h') :
    ∀ kv ∈ ops, hashmap_get h' kv.1 = some kv.2 := by
  intro kv hkv
  obtain ⟨hw', -, hview⟩ := runOps_sound fuel _ _ h' (INV_mkEmpty none) hrun
  have hk0 : kv.1 ≠ 0 := (hkeys kv hkv).1
  have hv0 : kv.2 ≠ 0 := (hkeys kv hkv).2
  obtain ⟨l1, l2, hops⟩ := List.append_of_mem hkv
  have hsub : (kv :: l2).Sublist ops := by
    rw [hops]
    exact List.sublist_append_right l1 _
  have hp2 := (List.pairwise_cons.mp (hdist.sublist hsub)).1
  have hvk : view h'.entries kv.1 = kv.2 := by
    rw [hview kv.1 hk0, hops, List.foldl_append, List.foldl_cons, if_pos rfl]
    exact foldl_no_touch kv.1 l2 kv.2 (fun kv2 h2 hh => hp2 kv2 h2 hh.symm)
  rw [get_view h' hw' kv.1 hk0 (by rw [hvk]; exact hv0), hvk]

theorem C2_collision_lookups_witness :
    ([((512 : Nat), (1 : Nat)), (1024, 2), (1536, 3)].length ≤ 15) ∧
    ([((512 : Nat), (1 : Nat)), (1024, 2), (1536, 3)].Pairwise
      (fun a b => a.1 ≠ b.1)) ∧
    (∀ kv ∈ [((512 : Nat), (1 : Nat)), (1024, 2), (1536, 3)],
      kv.1 ≠ 0 ∧ kv.2 ≠ 0) ∧
    (∀ kv ∈ [((512 : Nat), (1 : Nat)), (1024, 2), (1536, 3)],
      ∀ kv2 ∈ [((512 : Nat), (1 : Nat)), (1024, 2), (1536, 3)],
      homeIdx 16 kv.1 = homeIdx 16 kv2.1) ∧
    runOps 1 (mkEmpty none) [(512, 1), (1024, 2), (1536, 3)] =
      some ((runOps 1 (mkEmpty none)
        [(512, 1), (1024, 2), (1536, 3)]).getD (mkEmpty none)) ∧
    (∀ kv ∈ [((512 : Nat), (1 : Nat)), (1024, 2), (1536, 3)],
      hashmap_get ((runOps 1 (mkEmpty none)
        [(512, 1), (1024, 2), (1536, 3)]).getD (mkEmpty none)) kv.1 =
        some kv.2) :=
  ⟨by decide, by decide, by decide, by decide,
    by simp only [runOps, hashmap_set, setLoop]; rfl,
    C2_collision_lookups 1 [(512, 1), (1024, 2), (1536, 3)] _
      (by decide) (by decide) (by decide) (by decide)
      (by simp only [runOps, hashmap_set, setLoop]; rfl)⟩

/-- C3: `hashmap_set` on a key already present (at any position `j` of its
chain) updates the value in that slot in place and returns the old value; a
null-value write to a present key leaves the entry with a null value, makes
`get` return `NULL`, and decrements the occupancy count by one. -/
theorem C3_update_delete (fuel : Nat) (es : Array Entry) (cap : Nat)
    (cnt lf : Int) (fb : Option Hashmap) (hw : INV (.mk es cap cnt lf fb))
    (k v j : Nat) (hk : k ≠ 0) (hj : j < cap) (hkj : keyAt es j = k)
    (hvj : valAt es j ≠ 0) (old : Nat) (h' : Hashmap)
    (hset : hashmap_set fuel (.mk es cap cnt lf fb) k v = some (old, h')) :
    old = valAt es j ∧
    h' = .mk (es.set! j ⟨keyAt es j, v, nextAt es j⟩) cap
      (cnt + (if v ≠ 0 then 1 else 0) + (if valAt es j ≠ 0 then -1 else 0))
      lf fb ∧
    (v ≠ 0 → h'.count = cnt) ∧
    (v = 0 → h'.count = cnt - 1 ∧ hashmap_get h' k = some 0) := by
  have hcap : cap ≠ 0 := by omega
  rw [hashmap_set.eq_def] at hset
  dsimp only at hset
  rw [if_neg hk,
    if_neg (show ¬ (Hashmap.mk es cap cnt lf fb).capacity = 0 from hcap)] at hset
  cases fuel with
  | zero =>
    rw [setLoop.eq_def] at hset
    exact absurd hset (by simp)
  | succ f =>
    rw [setLoop.eq_def] at hset
    dsimp only at hset
    rw [setCore_update_case es cap cnt lf fb hw k v j hk hj hkj] at hset
    dsimp only at hset
    obtain ⟨rfl, rfl⟩ : valAt es j = old ∧ _ = h' := by
      injection hset with h1
      injection h1 with h2 h3
      exact ⟨h2, h3⟩
    refine ⟨rfl, rfl, fun hv => ?_, fun hv => ⟨?_, ?_⟩⟩
    · show cnt + _ + _ = cnt
      rw [if_pos hv, if_pos hvj]
      omega
    · show cnt + _ + _ = cnt - 1
      rw [if_neg (by simpa using hv), if_pos hvj]
      omega
    · have hw' : INV (.mk (es.set! j ⟨keyAt es j, v, nextAt es j⟩) cap
          (cnt + (if v ≠ 0 then 1 else 0) + (if valAt es j ≠ 0 then -1 else 0))
          lf fb) :=
        (update_spec es cap cnt lf _ fb hw k v hk j hj hkj).1
      have hjsz : j < es.size := by
        have := (id hw : INV (.mk es cap cnt lf fb)).1
        omega
      rw [get_holder _ cap _ lf fb hw' k hk j hj
        (by rw [keyAt_setE_self es j _ hjsz]; exact hkj)]
      rw [valAt_setE_self es j _ hjsz, hv]

theorem C3_update_delete_witness :
    INV (.mk ((Array.mkArray 16 emptyEntry).set! 5 ⟨160, 7, none⟩) 16 1 15 none) ∧
    (160 : Nat) ≠ 0 ∧ (5 : Nat) < 16 ∧
    keyAt ((Array.mkArray 16 emptyEntry).set! 5 ⟨160, 7, none⟩) 5 = 160 ∧
    valAt ((Array.mkArray 16 emptyEntry).set! 5 ⟨160, 7, none⟩) 5 ≠ 0 ∧
    hashmap_set 1 (.mk ((Array.mkArray 16 emptyEntry).set! 5 ⟨160, 7, none⟩)
        16 1 15 none) 160 0 =
      some (7, .mk (((Array.mkArray 16 emptyEntry).set! 5 ⟨160, 7, none⟩).set! 5
        ⟨160, 0, none⟩) 16 0 15 none) ∧
    hashmap_get (.mk (((Array.mkArray 16 emptyEntry).set! 5 ⟨160, 7, none⟩).set! 5
      ⟨160, 0, none⟩) 16 0 15 none) 160 = some 0 :=
  ⟨by decide, by decide, by decide, by decide, by decide,
    by simp only [hashmap_set, setLoop]; rfl,
    by
      have h := C3_update_delete 1
        ((Array.mkArray 16 emptyEntry).set! 5 ⟨160, 7, none⟩) 16 1 15 none
        (by decide) 160 0 5 (by decide) (by decide) (by decide) (by decide)
        7 (.mk (((Array.mkArray 16 emptyEntry).set! 5 ⟨160, 7, none⟩).set! 5
          ⟨160, 0, none⟩) 16 0 15 none)
        (by simp only [hashmap_set, setLoop]; rfl)
      exact (h.2.2.2 rfl).2⟩

/-- C6: on a table with a fallback, `hashmap_get` of a key held by no local
slot recurses into the fallback, and `hashmap_set` on the local table leaves
the fallback table (its entries, occupancy and capacity) untouched. -/
theorem C6_fallback_readthrough (es : Array Entry) (cap : Nat) (cnt lf : Int)
    (fbt : Hashmap) (hw : INV (.mk es cap cnt lf (some fbt))) (k : Nat)
    (hk : k ≠ 0) (habs : ∀ j, j < cap → keyAt es j ≠ k)
    (fuel : Nat) (k2 v2 old : Nat) (h' : Hashmap)
    (hset : hashmap_set fuel (.mk es cap cnt lf (some fbt)) k2 v2 =
      some (old, h')) :
    hashmap_get (.mk es cap cnt lf (some fbt)) k = hashmap_get fbt k ∧
    h'.fallback = some fbt := by
  constructor
  · by_cases hcap : cap = 0
    · rw [hashmap_get.eq_def]
      dsimp only
      rw [if_neg (by omega : ¬ cap > 0)]
    · rw [hashmap_get.eq_def]
      dsimp only
      rw [if_pos (by omega : cap > 0),
        findKeyWalk_absent es cap cnt lf (some fbt) hw k hk hcap habs]
  · exact (hashmap_set_sound fuel _ k2 v2 old h' hw hset).2.1

theorem C6_fallback_readthrough_witness :
    INV (.mk (Array.mkArray 16 emptyEntry) 16 0 15
      (some (.mk ((Array.mkArray 16 emptyEntry).set! 5 ⟨160, 7, none⟩)
        16 1 15 none))) ∧
    (160 : Nat) ≠ 0 ∧
    (∀ j, j < 16 → keyAt (Array.mkArray 16 emptyEntry) j ≠ 160) ∧
    hashmap_set 1 (.mk (Array.mkArray 16 emptyEntry) 16 0 15
      (some (.mk ((Array.mkArray 16 emptyEntry).set! 5 ⟨160, 7, none⟩)
        16 1 15 none))) 672 9 =
      some (0, .mk ((Array.mkArray 16 emptyEntry).set! 5 ⟨672, 9, none⟩) 16 1 15
        (some (.mk ((Array.mkArray 16 emptyEntry).set! 5 ⟨160, 7, none⟩)
          16 1 15 none))) ∧
    (hashmap_get (.mk (Array.mkArray 16 emptyEntry) 16 0 15
      (some (.mk ((Array.mkArray 16 emptyEntry).set! 5 ⟨160, 7, none⟩)
        16 1 15 none))) 160 =
      hashmap_get (.mk ((Array.mkArray 16 emptyEntry).set! 5 ⟨160, 7, none⟩)
        16 1 15 none) 160 ∧
    (Hashmap.mk ((Array.mkArray 16 emptyEntry).set! 5 ⟨672, 9, none⟩) 16 1 15
        (some (.mk ((Array.mkArray 16 emptyEntry).set! 5 ⟨160, 7, none⟩)
          16 1 15 none))).fallback =
      some (.mk ((Array.mkArray 16 emptyEntry).set! 5 ⟨160, 7, none⟩)
        16 1 15 none)) :=
  ⟨by decide, by decide, by decide,
    by simp only [hashmap_set, setLoop]; rfl,
    C6_fallback_readthrough (Array.mkArray 16 emptyEntry) 16 0 15
      (.mk ((Array.mkArray 16 emptyEntry).set! 5 ⟨160, 7, none⟩) 16 1 15 none)
      (by decide) 160 (by decide) (by decide) 1 672 9 0 _
      (by simp only [hashmap_set, setLoop]; rfl)⟩

theorem nextScanGo_sound (es : Array Entry) :
    ∀ f j k, nextScanGo es f j = some k →
      ∃ s, s < es.size ∧ keyAt es s = k ∧ k ≠ 0 ∧ valAt es s ≠ 0 := by
  intro f
  induction f with
  | zero => intro j k hs; exact absurd hs (by simp [nextScanGo])
  | succ f ih =>
    intro j k hs
    rw [nextScanGo] at hs
    by_cases hlt : j < es.size
    · rw [dif_pos hlt] at hs
      by_cases hcond : es[j].key ≠ 0 ∧ es[j].val ≠ 0
      · rw [if_pos hcond] at hs
        obtain rfl : es[j].key = k := by injection hs
        exact ⟨j, hlt, keyAt_lt es j hlt, hcond.1,
          by rw [valAt_lt es j hlt]; exact hcond.2⟩
      · rw [if_neg hcond] at hs
        exact ih (j + 1) k hs
    · rw [dif_neg hlt] at hs
      exact absurd hs (by simp)

/-- C9: every key yielded by `hashmap_next` is live: `hashmap_get` returns a
non-null value for it.  In particular an entry whose value was nulled by
`set(k, NULL)` is never yielded. -/
theorem C9_next_live (es : Array Entry) (cap : Nat) (cnt lf : Int)
    (fb : Option Hashmap) (hw : INV (.mk es cap cnt lf fb)) (k0 k : Nat)
    (hnext : hashmap_next (.mk es cap cnt lf fb) k0 = some (some k)) :
    k ≠ 0 ∧ ∃ v, hashmap_get (.mk es cap cnt lf fb) k = some v ∧ v ≠ 0 := by
  have hfind : ∃ j, nextScan es j = some k := by
    dsimp only [hashmap_next, Hashmap.capacity, Hashmap.entries] at hnext
    by_cases hcap : cap = 0
    · rw [if_pos hcap] at hnext
      exact absurd hnext (by simp)
    · rw [if_neg hcap] at hnext
      by_cases hk0 : k0 = 0
      · rw [if_pos hk0] at hnext
        exact ⟨0, by injection hnext⟩
      · rw [if_neg hk0] at hnext
        by_cases hemp : (es[homeIdx cap k0]?.getD emptyEntry).key = 0
        · rw [if_pos hemp] at hnext
          exact absurd hnext (by simp)
        · rw [if_neg hemp] at hnext
          cases hwalk : walkFindSlot es (es.size + 1) (homeIdx cap k0) k0 with
          | none => rw [hwalk] at hnext; exact absurd hnext (by simp)
          | some r =>
            cases r with
            | none => rw [hwalk] at hnext; exact absurd hnext (by simp)
            | some sft =>
              rw [hwalk] at hnext
              dsimp only at hnext
              exact ⟨sft + 1, by injection hnext⟩
  obtain ⟨j, hscan⟩ := hfind
  obtain ⟨s, hssz, hks, hkne, hvs⟩ := nextScanGo_sound es _ _ k hscan
  have hscap : s < cap := by
    have := (id hw : INV (.mk es cap cnt lf fb)).1
    omega
  exact ⟨hkne, valAt es s,
    get_holder es cap cnt lf fb hw k hkne s hscap hks, hvs⟩

theorem C9_next_live_witness :
    INV (.mk ((Array.mkArray 16 emptyEntry).set! 5 ⟨160, 7, none⟩)
      16 1 15 none) ∧
    hashmap_next (.mk ((Array.mkArray 16 emptyEntry).set! 5 ⟨160, 7, none⟩)
      16 1 15 none) 0 = some (some 160) ∧
    (160 : Nat) ≠ 0 ∧
    (∃ v, hashmap_get (.mk ((Array.mkArray 16 emptyEntry).set! 5 ⟨160, 7, none⟩)
      16 1 15 none) 160 = some v ∧ v ≠ 0) :=
  ⟨by decide, by simp only [hashmap_next, nextScan, nextScanGo]; rfl,
    by decide,
    (C9_next_live ((Array.mkArray 16 emptyEntry).set! 5 ⟨160, 7, none⟩)
      16 1 15 none (by decide) 0 160
      (by simp only [hashmap_next, nextScan, nextScanGo]; rfl)).2⟩

/-- C4: the occupancy count does not track the keys `get` reports present —
inserting a colliding key with a `NULL` value increments `count` while the
key stays absent (`get` returns `NULL`), so `hashmap_length` counts 2 with
only one live key. -/
theorem C4_occupancy_bug :
    (runOps 1 (mkEmpty none) [(160, 7), (672, 0)]).map hashmap_length =
      some 2 ∧
    (runOps 1 (mkEmpty none) [(160, 7), (672, 0)]).map
      (fun h => hashmap_get h 672) = some (some 0) ∧
    (runOps 1 (mkEmpty none) [(160, 7), (672, 0)]).map
      (fun h => hashmap_get h 160) = some (some 7) ∧
    (runOps 1 (mkEmpty none) [(160, 7), (672, 0)]).map
      (fun h => (h.entries.toList.filter
        (fun e => e.key != 0 && e.val != 0)).length) = some 1 := by
  refine ⟨?_, ?_, ?_, ?_⟩ <;> simp only [runOps, hashmap_set, setLoop] <;> rfl

/-- C10: a `NULL`-value write to an absent key whose home slot is occupied by
another chain is not a no-op: it creates a null-valued entry and increments
the count (returning `NULL` as if nothing happened). -/
theorem C10_null_write_creates_entry :
    (runOps 1 (mkEmpty none) [(512, 9)]).map hashmap_length = some 1 ∧
    ((runOps 1 (mkEmpty none) [(512, 9)]).map
      (fun h => (hashmap_set 1 h 1024 0).map Prod.fst)) = some (some 0) ∧
    (runOps 1 (mkEmpty none) [(512, 9), (1024, 0)]).map hashmap_length =
      some 2 ∧
    (runOps 1 (mkEmpty none) [(512, 9), (1024, 0)]).map
      (fun h => keyAt h.entries 15) = some 1024 := by
  refine ⟨?_, ?_, ?_, ?_⟩ <;> simp only [runOps, hashmap_set, setLoop] <;> rfl

/-! ## `src/unnamed/part_011`: the index-linked variant and `hashmap_pop` -/

namespace P11

/-- Entry of the index-linked variant: `next` is an `int` slot index with
`-1` as the terminator; `calloc` zero-initializes it to `0`. -/
structure Entry where
  key : Nat
  val : Nat
  next : Int
deriving DecidableEq

def emptyEntry : Entry := ⟨0, 0, 0⟩

/-- The `hashmap_t` fields this variant's `set`/`pop` touch (the `fallback`
pointer is only read by `hashmap_get`, which is not modelled here). -/
structure HM where
  entries : Array Entry
  capacity : Nat
  count : Int
  next_free : Int
deriving DecidableEq

/-- `while (h->entries[i].key != key) { if (next == -1) return NULL; … }` —
the search loop of `hashmap_pop`.  Returns the slot and its predecessor;
`some none` is the not-found return, `none` is divergence / an out-of-bounds
dereference. -/
def popFind : Nat → Array Entry → Nat → Nat → Nat → Option (Option (Nat × Nat))
  | 0, _, _, _, _ => none
  | fuel + 1, es, key, i, prev =>
    match es[i]? with
    | none => none
    | some e =>
      if e.key = key then some (some (i, prev))
      else if e.next = -1 then some none
      else popFind fuel es key e.next.toNat i

/-- `for (j = i; j != -1; j = entries[j].next) if (entries[j].key == key)` —
the update scan of this variant's `hashmap_set`. -/
def findJ : Nat → Array Entry → Nat → Int → Option (Option Nat)
  | 0, _, _, _ => none
  | fuel + 1, es, key, j =>
    if j = -1 then some none
    else
      match es[j.toNat]? with
      | none => none
      | some e => if e.key = key then some (some j.toNat) else findJ fuel es key e.next

/-- `while (entries[next_free].key) { if (next_free <= 0) next_free = cap-1;
else --next_free; }` — the wrapping free-slot scan. -/
def scanNF : Nat → Array Entry → Nat → Int → Option Int
  | 0, _, _, _ => none
  | fuel + 1, es, cap, nf =>
    match es[nf.toNat]? with
    | none => none
    | some e =>
      if e.key ≠ 0 then
        scanNF fuel es cap (if nf ≤ 0 then (cap : Int) - 1 else nf - 1)
      else some nf

/-- `while (entries[prev].next != i) prev = entries[prev].next;`. -/
def prevWalk : Nat → Array Entry → Int → Int → Option Int
  | 0, _, _, _ => none
  | fuel + 1, es, prev, i =>
    match es[prev.toNat]? with
    | none => none
    | some e => if e.next = i then some prev else prevWalk fuel es e.next i

mutual

/-- `hashmap_resize` of the index-linked variant: fresh zeroed array,
`count = 0`, `next_free = new_size - 1`, then rehash by re-insertion. -/
def hashmap_resize : Nat → HM → Nat → Option HM
  | fuel, h, newSize =>
    rehashLoop fuel ⟨Array.mkArray newSize emptyEntry, newSize, 0,
      (newSize : Int) - 1⟩ h.entries 0
termination_by fuel _ _ => (fuel, 2, 0)

/-- The rehash loop of the index-linked variant. -/
def rehashLoop : Nat → HM → Array Entry → Nat → Option HM
  | fuel, h, old, i =>
    if hlt : i < old.size then
      if old[i].key ≠ 0 then
        match hashmap_set fuel h old[i].key old[i].val with
        | none => none
        | some (_, h') => rehashLoop fuel h' old (i + 1)
      else rehashLoop fuel h old (i + 1)
    else some h
termination_by fuel _ old i => (fuel, 1, old.size - i)

/-- `hashmap_set` of the index-linked variant (`src/unnamed/part_011`
lines 98-151): resize-to-16 when empty, proactive doubling when
`count + 1 >= capacity`, then empty-slot store / in-chain update /
Brent splice or relocation. -/
def hashmap_set : Nat → HM → Nat → Nat → Option (Nat × HM)
  | 0, _, _, _ => none
  | fuel + 1, h, key, value =>
    match (if h.capacity = 0 then hashmap_resize fuel h 16 else some h) with
    | none => none
    | some h1 =>
      match (if h1.count + 1 ≥ (h1.capacity : Int) then
          hashmap_resize fuel h1 (h1.capacity * 2) else some h1) with
      | none => none
      | some h2 =>
        let i := homeIdx h2.capacity key
        match h2.entries[i]? with
        | none => none
        | some ce =>
          if ce.key = 0 then
            some (0, { h2 with
              entries := h2.entries.set! i ⟨key, value, -1⟩
              count := h2.count + 1 })
          else
            match findJ (h2.entries.size + 1) h2.entries key (i : Int) with
            | none => none
            | some (some j) =>
              let e := h2.entries[j]?.getD emptyEntry
              some (e.val, { h2 with
                entries := h2.entries.set! j ⟨key, value, e.next⟩ })
            | some none =>
              match scanNF (h2.entries.size + 1) h2.entries h2.capacity
                  h2.next_free with
              | none => none
              | some nf =>
                let fi := nf.toNat
                let i2 := homeIdx h2.capacity ce.key
                if i2 = i then
                  some (0, ⟨(h2.entries.set! fi ⟨key, value, ce.next⟩).set! i
                    ⟨ce.key, ce.val, (fi : Int)⟩, h2.capacity,
                    h2.count + 1, nf⟩)
                else
                  match prevWalk (h2.entries.size + 1) h2.entries (i2 : Int)
                      (i : Int) with
                  | none => none
                  | some p =>
                    let es1 := h2.entries.set! p.toNat
                      { (h2.entries[p.toNat]?.getD emptyEntry) with
                        next := (fi : Int) }
                    let es2 := es1.set! fi (es1[i]?.getD emptyEntry)
                    let es3 := es2.set! i ⟨key, value, -1⟩
                    some (0, ⟨es3, h2.capacity, h2.count + 1, nf⟩)
termination_by fuel _ _ _ => (fuel, 0, 0)

end

/-- `hashmap_pop` (`src/unnamed/part_011` lines 64-96): search the chain from
the home slot with `while (entries[i].key != key)`, unlink / clear on a hit,
decrement the count, shrink when `count > 16 && count < capacity/3`. -/
def hashmap_pop (fuel : Nat) (h : HM) (key : Nat) : Option (Nat × HM) :=
  if h.capacity = 0 then some (0, h)
  else
    match popFind fuel h.entries key (homeIdx h.capacity key)
        (homeIdx h.capacity key) with
    | none => none
    | some none => some (0, h)
    | some (some (i, prev)) =>
      let e := h.entries[i]?.getD emptyEntry
      let h1 : HM :=
        if e.next ≠ -1 then
          ⟨(h.entries.set! i (h.entries[e.next.toNat]?.getD emptyEntry)).set!
              e.next.toNat emptyEntry,
            h.capacity, h.count - 1,
            if e.next > h.next_free then e.next else h.next_free⟩
        else
          ⟨(if prev ≠ i then
              h.entries.set! prev
                { (h.entries[prev]?.getD emptyEntry) with next := -1 }
            else h.entries).set! i emptyEntry,
            h.capacity, h.count - 1, h.next_free⟩
      if h1.count > 16 ∧ h1.count < ((h.capacity / 3 : Nat) : Int) then
        (hashmap_resize fuel h1 (h.capacity / 2)).map (fun h2 => (e.val, h2))
      else some (e.val, h1)

end P11

/-- The table `hashmap_set(new_hashmap(), 160, 7)` builds in the index-linked
variant: capacity 16, key 160 at its home slot 5, all other slots zeroed. -/
theorem p11_set_builds :
    P11.hashmap_set 1 ⟨#[], 0, 0, 0⟩ 160 7 =
      some (0, ⟨(Array.mkArray 16 P11.emptyEntry).set! 5 ⟨160, 7, -1⟩,
        16, 1, 15⟩) := by
  have hres : P11.hashmap_resize 0 ⟨#[], 0, 0, 0⟩ 16 =
      some ⟨Array.mkArray 16 P11.emptyEntry, 16, 0, 15⟩ := by
    rw [P11.hashmap_resize, P11.rehashLoop]
    rw [dif_neg (by decide : ¬ (0 : Nat) < (#[] : Array P11.Entry).size)]
    rfl
  rw [show (1 : Nat) = 0 + 1 from rfl, P11.hashmap_set]
  rw [if_pos (show (⟨#[], 0, 0, 0⟩ : P11.HM).capacity = 0 from rfl), hres]
  rfl

theorem p11_popFind_loops :
    ∀ fuel p, P11.popFind fuel
      ((Array.mkArray 16 P11.emptyEntry).set! 5 ⟨160, 7, -1⟩) 96 0 p = none := by
  intro fuel
  induction fuel with
  | zero => intro p; rfl
  | succ f ih =>
    intro p
    rw [P11.popFind,
      show ((Array.mkArray 16 P11.emptyEntry).set! 5 ⟨160, 7, -1⟩)[0]? =
        some ⟨0, 0, 0⟩ from rfl]
    dsimp only
    rw [if_neg (by decide : ¬ (0 : Nat) = 96),
      if_neg (by decide : ¬ (0 : Int) = -1)]
    exact ih 0

/-- C5: `hashmap_pop` of the absent key 96 — whose home slot 3 is an *empty*
slot whose zero-initialized `next` field is `0`, a valid index — never
terminates: the search loop reads `next = 0`, moves to slot 0 and then spins
on slot 0 forever, at every fuel bound. -/
theorem C5_pop_absent_diverges (fuel : Nat) :
    (P11.hashmap_set 1 ⟨#[], 0, 0, 0⟩ 160 7).map
      (fun r => P11.hashmap_pop fuel r.2 96) = some none := by
  rw [p11_set_builds]
  dsimp only [Option.map]
  rw [P11.hashmap_pop]
  rw [if_neg (by decide : ¬ (16 : Nat) = 0)]
  dsimp only
  have h3 : ∀ f, P11.popFind f
      ((Array.mkArray 16 P11.emptyEntry).set! 5 ⟨160, 7, -1⟩) 96 3 3 = none := by
    intro f
    cases f with
    | zero => rfl
    | succ f2 =>
      rw [P11.popFind,
        show ((Array.mkArray 16 P11.emptyEntry).set! 5 ⟨160, 7, -1⟩)[3]? =
          some ⟨0, 0, 0⟩ from rfl]
      dsimp only
      rw [if_neg (by decide : ¬ (0 : Nat) = 96),
        if_neg (by decide : ¬ (0 : Int) = -1)]
      exact p11_popFind_loops f2 3
  rw [show homeIdx 16 96 = 3 from rfl, h3 fuel]

/-! ## `src/hashset.c`: the hash set variant -/

namespace HS

/-- `hashset_entry_t`: an item pointer and an `int` chain index
(zero-initialized by `calloc`, `-1` terminates). -/
structure Entry where
  item : Nat
  next : Int
deriving DecidableEq

/-- `hashset_t`. -/
structure Hashset where
  entries : Array Entry
  capacity : Nat
  occupancy : Int
  next_free : Int
deriving DecidableEq

/-- `for (j = i; j != -1; j = entries[j].next) if (entries[j].item == item)` —
the membership scan of `hashset_add`. -/
def findJ : Nat → Array Entry → Nat → Int → Option Bool
  | 0, _, _, _ => none
  | fuel + 1, es, item, j =>
    if j = -1 then some false
    else
      match es[j.toNat]? with
      | none => none
      | some e => if e.item = item then some true else findJ fuel es item e.next

/-- `while (entries[next_free].item) { if (next_free <= 0) next_free = cap-1;
else --next_free; }`. -/
def scanNF : Nat → Array Entry → Nat → Int → Option Int
  | 0, _, _, _ => none
  | fuel + 1, es, cap, nf =>
    match es[nf.toNat]? with
    | none => none
    | some e =>
      if e.item ≠ 0 then
        scanNF fuel es cap (if nf ≤ 0 then (cap : Int) - 1 else nf - 1)
      else some nf

/-- `while (entries[prev].next != i) prev = entries[prev].next;`. -/
def prevWalk : Nat → Array Entry → Int → Int → Option Int
  | 0, _, _, _ => none
  | fuel + 1, es, prev, i =>
    match es[prev.toNat]? with
    | none => none
    | some e => if e.next = i then some prev else prevWalk fuel es e.next i

mutual

/-- `hashset_resize`: fresh zeroed array, `occupancy = 0`,
`next_free = new_size - 1`, rehash by re-adding. -/
def hashset_resize : Nat → Hashset → Nat → Option Hashset
  | fuel, h, newSize =>
    rehashLoop fuel ⟨Array.mkArray newSize ⟨0, 0⟩, newSize, 0,
      (newSize : Int) - 1⟩ h.entries 0
termination_by fuel _ _ => (fuel, 2, 0)

/-- The rehash loop of `hashset_resize`. -/
def rehashLoop : Nat → Hashset → Array Entry → Nat → Option Hashset
  | fuel, h, old, i =>
    if hlt : i < old.size then
      if old[i].item ≠ 0 then
        match hashset_add fuel h old[i].item with
        | none => none
        | some (_, h') => rehashLoop fuel h' old (i + 1)
      else rehashLoop fuel h old (i + 1)
    else some h
termination_by fuel _ old i => (fuel, 1, old.size - i)

/-- `hashset_add` (`src/hashset.c` lines 238-287).  Note the no-collision
branch stores the item — without a null-key guard — and returns `true`
*before* the `++occupancy` at the end of the function. -/
def hashset_add : Nat → Hashset → Nat → Option (Bool × Hashset)
  | 0, _, _ => none
  | fuel + 1, h, item =>
    match (if h.capacity = 0 then hashset_resize fuel h 16 else some h) with
    | none => none
    | some h1 =>
      match (if h1.occupancy + 1 ≥ (h1.capacity : Int) then
          hashset_resize fuel h1 (h1.capacity * 2) else some h1) with
      | none => none
      | some h2 =>
        let i := homeIdx h2.capacity item
        match h2.entries[i]? with
        | none => none
        | some ce =>
          if ce.item = 0 then
            some (true, { h2 with entries := h2.entries.set! i ⟨item, -1⟩ })
          else
            match findJ (h2.entries.size + 1) h2.entries item (i : Int) with
            | none => none
            | some true => some (false, h2)
            | some false =>
              match scanNF (h2.entries.size + 1) h2.entries h2.capacity
                  h2.next_free with
              | none => none
              | some nf =>
                let fi := nf.toNat
                let i2 := homeIdx h2.capacity ce.item
                if i2 = i then
                  some (true, ⟨(h2.entries.set! fi ⟨item, ce.next⟩).set! i
                    ⟨ce.item, (fi : Int)⟩, h2.capacity, h2.occupancy + 1, nf⟩)
                else
                  match prevWalk (h2.entries.size + 1) h2.entries (i2 : Int)
                      (i : Int) with
                  | none => none
                  | some p =>
                    let es1 := h2.entries.set! p.toNat
                      { (h2.entries[p.toNat]?.getD ⟨0, 0⟩) with
                        next := (fi : Int) }
                    let es2 := es1.set! fi (es1[i]?.getD ⟨0, 0⟩)
                    let es3 := es2.set! i ⟨item, -1⟩
                    some (true, ⟨es3, h2.capacity, h2.occupancy + 1, nf⟩)
termination_by fuel _ _ => (fuel, 0, 0)

end

end HS

/-- A chain walk for the `NULL` key never reports a hit: empty slots stop the
walk before their key is compared, and occupied slots hold non-null keys. -/
theorem findKeyWalk_zero (es : Array Entry) :
    ∀ f i, findKeyWalk es f i 0 = some none ∨ findKeyWalk es f i 0 = none := by
  intro f
  induction f with
  | zero => intro i; exact Or.inr rfl
  | succ f ih =>
    intro i
    rw [findKeyWalk]
    cases hq : es[i]? with
    | none => exact Or.inr rfl
    | some e =>
      dsimp only
      by_cases h0 : e.key = 0
      · rw [if_pos h0]
        exact Or.inl rfl
      · rw [if_neg h0, if_neg h0]
        cases e.next with
        | none => exact Or.inl rfl
        | some j => exact ih j

/-- `hashmap_get` of the `NULL` key never yields a stored value: on every
table of the fallback chain the walk misses, so the result is `NULL` (or no
result at all on a corrupted cyclic chain). -/
theorem get_null_key : ∀ h : Hashmap,
    hashmap_get h 0 = some 0 ∨ hashmap_get h 0 = none
  | .mk es cap cnt lf fb => by
    rw [hashmap_get.eq_def]
    dsimp only
    by_cases hcap : cap > 0
    · rw [if_pos hcap]
      rcases findKeyWalk_zero es (es.size + 1) (homeIdx cap 0) with hw | hw
      · rw [hw]
        cases fb with
        | none => exact Or.inl rfl
        | some fb' => exact get_null_key fb'
      · rw [hw]
        exact Or.inr rfl
    · rw [if_neg hcap]
      cases fb with
      | none => exact Or.inl rfl
      | some fb' => exact get_null_key fb'

/-- C8 (map side): `hashmap_set` rejects a `NULL` key up front — it returns
`NULL` and the table is unchanged, at every fuel — and `hashmap_get` of a
`NULL` key never returns a stored value. -/
theorem C8_null_key_noop (fuel : Nat) (h : Hashmap) (v : Nat) :
    hashmap_set fuel h 0 v = some (0, h) ∧
    (hashmap_get h 0 = some 0 ∨ hashmap_get h 0 = none) := by
  constructor
  · rw [hashmap_set.eq_def]
    dsimp only
    rw [if_pos rfl]
  · exact get_null_key h

/-- C8 (set side, refuting the original claim): `hashset_add` has no null-key
guard: adding `NULL` to a fresh set hashes the null pointer to slot 7, writes
that slot's `next` field, and returns `true` — not the claimed absent
no-op (and, separately, skips the occupancy increment). -/
theorem C8_null_key_counterexample :
    (HS.hashset_add 1 ⟨#[], 0, 0, 0⟩ 0).map Prod.fst = some true ∧
    (HS.hashset_add 1 ⟨#[], 0, 0, 0⟩ 0).map
      (fun r => (r.2.entries[7]?.getD (⟨0, 0⟩ : HS.Entry)).next) = some (-1) ∧
    (HS.hashset_add 1 ⟨#[], 0, 0, 0⟩ 0).map (fun r => r.2.occupancy) =
      some 0 := by
  have hres : HS.hashset_resize 0 ⟨#[], 0, 0, 0⟩ 16 =
      some ⟨Array.mkArray 16 ⟨0, 0⟩, 16, 0, 15⟩ := by
    rw [HS.hashset_resize, HS.rehashLoop]
    rw [dif_neg (by decide : ¬ (0 : Nat) < (#[] : Array HS.Entry).size)]
    rfl
  have hadd : HS.hashset_add 1 ⟨#[], 0, 0, 0⟩ 0 =
      some (true, ⟨(Array.mkArray 16 (⟨0, 0⟩ : HS.Entry)).set! 7 ⟨0, -1⟩,
        16, 0, 15⟩) := by
    rw [show (1 : Nat) = 0 + 1 from rfl, HS.hashset_add]
    rw [if_pos (show (⟨#[], 0, 0, 0⟩ : HS.Hashset).capacity = 0 from rfl), hres]
    rfl
  rw [hadd]
  exact ⟨rfl, rfl, rfl⟩

/-! ## `src/unnamed/part_007`: the string interning table (first variant,
lines 19-139).  Strings live in an explicit heap of byte lists: a pointer is
a positive index into the heap, `0` is `NULL`, and `strdup` appends a copy
(a fresh pointer with equal bytes). -/

namespace IN

/-- `intern_entry_t`: a string pointer and a chain pointer. -/
structure IEntry where
  str : Nat
  next : Option Nat
deriving DecidableEq

/-- The interning state: the heap of allocated strings plus the static
`interned` / `capacity` / `count` / `lastfree` of intern.c. -/
structure IState where
  heap : List (List Nat)
  interned : Array IEntry
  capacity : Nat
  count : Int
  lastfree : Int
deriving DecidableEq

/-- The bytes a string pointer refers to (`[]` for `NULL` / dangling). -/
def deref (hp : List (List Nat)) (p : Nat) : List Nat := (hp.get? (p - 1)).getD []

/-- The byte loop of `hash_str`: `while (*p) { h = (1000003*h) ^ *p++; ++len;
if (len >= 127) { len += strlen((char*)p+1); break; } }`. -/
def hashStrLoop : List Nat → Nat → Nat → Nat × Nat
  | [], h, len => (h, len)
  | b :: rest, h, len =>
    let h' := ((1000003 * h) ^^^ b) % 2 ^ 64
    let len' := len + 1
    if len' ≥ 127 then (h', len' + (rest.length - 1))
    else hashStrLoop rest h' len'

/-- `hash_str` (`src/unnamed/part_007` lines 29-45): a content hash of the
first 127 bytes, seeded with the first byte shifted left 7, xor'ed with the
length, with `0` mapped to `1234567`. -/
def hash_str (sC : List Nat) : Nat :=
  let r := hashStrLoop sC ((sC.headD 0 <<< 7) % 2 ^ 64) 0
  let h := r.1 ^^^ r.2
  if h = 0 then 1234567 else h

/-- The chain walk of `lookup`:
`for (e = &interned[i]; e && e->str; e = e->next)
 if (strcmp(str, e->str) == 0) return e->str;`. -/
def lookupWalk : Nat → List (List Nat) → Array IEntry → List Nat → Nat →
    Option (Option Nat)
  | 0, _, _, _, _ => none
  | fuel + 1, hp, es, c, i =>
    match es[i]? with
    | none => none
    | some e =>
      if e.str = 0 then some none
      else if deref hp e.str = c then some (some e.str)
      else
        match e.next with
        | none => some none
        | some j => lookupWalk fuel hp es c j

/-- `lookup` (`src/unnamed/part_007` lines 64-73). -/
def lookup (st : IState) (strp : Nat) : Option (Option Nat) :=
  if st.capacity = 0 ∨ strp = 0 then some none
  else
    lookupWalk (st.interned.size + 1) st.heap st.interned (deref st.heap strp)
      (hash_str (deref st.heap strp) &&& (st.capacity - 1))

/-- `while (lastfree >= interned && lastfree->str) --lastfree;` on the
countdown `c = lastfree + 1`. -/
def scanFreeI (es : Array IEntry) : Nat → Int
  | 0 => -1
  | c + 1 => if (es[c]?.getD ⟨0, none⟩).str ≠ 0 then scanFreeI es c else (c : Int)

/-- `while (prev->next != collision) prev = prev->next;`. -/
def prevWalkI : Nat → Array IEntry → Nat → Nat → Option Nat
  | 0, _, _, _ => none
  | fuel + 1, es, p, target =>
    match es[p]? with
    | none => none
    | some e =>
      match e.next with
      | none => none
      | some q => if q = target then some p else prevWalkI fuel es q target

mutual

/-- `rehash` (`src/unnamed/part_007` lines 47-62): fresh zeroed table,
`count = 0`, `lastfree = &interned[new_size - 1]`, re-insert old strings. -/
def rehash : Nat → IState → Nat → Option IState
  | fuel, st, newSize =>
    rehashLoopI fuel ⟨st.heap, Array.mkArray newSize ⟨0, none⟩, newSize, 0,
      (newSize : Int) - 1⟩ st.interned 0
termination_by fuel _ _ => (fuel, 2, 0)

/-- The rehash loop of `rehash`. -/
def rehashLoopI : Nat → IState → Array IEntry → Nat → Option IState
  | fuel, st, old, i =>
    if hlt : i < old.size then
      if old[i].str ≠ 0 then
        match intern_insert fuel st old[i].str with
        | none => none
        | some st' => rehashLoopI fuel st' old (i + 1)
      else rehashLoopI fuel st old (i + 1)
    else some st
termination_by fuel _ old i => (fuel, 1, old.size - i)

/-- `intern_insert` (`src/unnamed/part_007` lines 75-110): grow when empty or
nearly full, then empty-home store / Brent splice or relocation (there is no
same-key update scan: callers look up first). -/
def intern_insert : Nat → IState → Nat → Option IState
  | 0, _, _ => none
  | fuel + 1, st, strp =>
    if strp = 0 then some st
    else
      match (if st.capacity = 0 then rehash fuel st 16
        else if st.count + 1 ≥ (st.capacity : Int) then
          rehash fuel st (st.capacity * 2)
        else some st) with
      | none => none
      | some st1 =>
        let i := hash_str (deref st1.heap strp) &&& (st1.capacity - 1)
        match st1.interned[i]? with
        | none => none
        | some ce =>
          if ce.str = 0 then
            some { st1 with
              interned := st1.interned.set! i ⟨strp, ce.next⟩
              count := st1.count + 1 }
          else
            let lf := scanFreeI st1.interned (st1.lastfree + 1).toNat
            if lf < 0 then none
            else
              let fi := lf.toNat
              let i2 := hash_str (deref st1.heap ce.str) &&& (st1.capacity - 1)
              if i2 = i then
                some { st1 with
                  interned := (st1.interned.set! fi ⟨strp, ce.next⟩).set! i
                    ⟨ce.str, some fi⟩
                  count := st1.count + 1
                  lastfree := lf }
              else
                match prevWalkI (st1.interned.size + 1) st1.interned i2 i with
                | none => none
                | some p =>
                  let es1 := st1.interned.set! fi
                    (st1.interned[i]?.getD ⟨0, none⟩)
                  let es2 := es1.set! p
                    { (es1[p]?.getD ⟨0, none⟩) with next := some fi }
                  let es3 := es2.set! i ⟨strp, none⟩
                  some { st1 with
                    interned := es3
                    count := st1.count + 1
                    lastfree := lf }
termination_by fuel _ _ => (fuel, 0, 0)

end

/-- `strdup`: allocate a fresh pointer with the same bytes. -/
def strdup (st : IState) (p : Nat) : IState × Nat :=
  ({ st with heap := st.heap ++ [deref st.heap p] }, st.heap.length + 1)

/-- `str_intern` (`src/unnamed/part_007` lines 132-139): look the contents
up; on a hit return the interned handle; on a miss insert a *copy* — and
return the caller's original pointer `str`. -/
def str_intern (fuel : Nat) (st : IState) (strp : Nat) : Option (Nat × IState) :=
  if strp = 0 then some (0, st)
  else
    match lookup st strp with
    | none => none
    | some (some dup) => some (dup, st)
    | some none =>
      let r := strdup st strp
      match intern_insert fuel r.1 r.2 with
      | none => none
      | some st2 => some (strp, st2)

end IN

/-- C7: interning two content-equal buffers at distinct addresses does not
give the identical handle: the first call inserts a fresh copy (pointer 3)
but returns the caller's buffer (pointer 1); the second call finds the copy
and returns pointer 3. -/
theorem C7_intern_no_dedup :
    IN.deref [[97], [97]] 1 = IN.deref [[97], [97]] 2 ∧
    (IN.str_intern 2 ⟨[[97], [97]], #[], 0, 0, -1⟩ 1).map Prod.fst =
      some 1 ∧
    ((IN.str_intern 2 ⟨[[97], [97]], #[], 0, 0, -1⟩ 1).bind
      (fun r => (IN.str_intern 2 r.2 2).map Prod.fst)) = some 3 ∧
    (1 : Nat) ≠ 3 := by
  have hre : IN.rehash 1 ⟨[[97], [97], [97]], #[], 0, 0, -1⟩ 16 =
      some ⟨[[97], [97], [97]], Array.mkArray 16 ⟨0, none⟩, 16, 0, 15⟩ := by
    rw [IN.rehash, IN.rehashLoopI]
    rw [dif_neg (by decide : ¬ (0 : Nat) < (#[] : Array IN.IEntry).size)]
    rfl
  have hins : IN.intern_insert 2 ⟨[[97], [97], [97]], #[], 0, 0, -1⟩ 3 =
      some ⟨[[97], [97], [97]],
        (Array.mkArray 16 (⟨0, none⟩ : IN.IEntry)).set!
          (IN.hash_str [97] &&& 15) ⟨3, none⟩, 16, 1, 15⟩ := by
    rw [show (2 : Nat) = 1 + 1 from rfl, IN.intern_insert]
    rw [if_neg (by decide : ¬ (3 : Nat) = 0)]
    rw [if_pos (show (⟨[[97], [97], [97]], #[], 0, 0, -1⟩ :
      IN.IState).capacity = 0 from rfl), hre]
    rfl
  have h1 : IN.str_intern 2 ⟨[[97], [97]], #[], 0, 0, -1⟩ 1 =
      some (1, ⟨[[97], [97], [97]],
        (Array.mkArray 16 (⟨0, none⟩ : IN.IEntry)).set!
          (IN.hash_str [97] &&& 15) ⟨3, none⟩, 16, 1, 15⟩) := by
    rw [IN.str_intern]
    rw [if_neg (by decide : ¬ (1 : Nat) = 0)]
    rw [show IN.lookup ⟨[[97], [97]], #[], 0, 0, -1⟩ 1 = some none from rfl]
    dsimp only
    rw [show (IN.strdup ⟨[[97], [97]], #[], 0, 0, -1⟩ 1).1 =
      ⟨[[97], [97], [97]], #[], 0, 0, -1⟩ from rfl,
      show (IN.strdup ⟨[[97], [97]], #[], 0, 0, -1⟩ 1).2 = 3 from rfl, hins]
  refine ⟨rfl, ?_, ?_, by decide⟩
  · rw [h1]
    rfl
  · rw [h1]
    dsimp only [Option.bind]
    rw [IN.str_intern]
    rw [if_neg (by decide : ¬ (2 : Nat) = 0)]
    rw [show IN.lookup ⟨[[97], [97], [97]],
      (Array.mkArray 16 (⟨0, none⟩ : IN.IEntry)).set!
        (IN.hash_str [97] &&& 15) ⟨3, none⟩, 16, 1, 15⟩ 2 =
      some (some 3) from rfl]
    rfl

end BH
